import Mathlib

/-!
Verification of the dependency-resolution and ordered-deployment engine of the
web3 contract loader.

The source program (a webpack loader) takes a map of compiled contract
artifacts, extracts inter-contract dependencies from two sources (bytecode
placeholder markers `__Name____...` and constructor parameters named
`inject_*` of type `address`), builds a directed dependency graph with an
acyclicity check after every edge insertion, computes a post-order traversal
as the deployment order, and then links and deploys the contracts.

This file gives a shallow embedding of that program:

* pure JS functions (`getDependenciesFromBytecode`,
  `getDependenciesFromConstructor`, `getDependencies`, `linkDependency`)
  become Lean functions on `String` / `List Char`;
* fallible JS code (thrown `TypeError`s and `Error`s) becomes `Except JsErr`;
* the graph library used by the source (construction, `isAcyclic`,
  `postorder`) is an external package, so it is modelled here by explicit
  adjacency lists with a bounded-depth reachability check and a fuelled
  depth-first post-order traversal, following the specification's
  description of those operations;
* the orchestration (`module.exports`: sort by dependencies, then run
  `deploy` over the sorted list) is modelled by `runLoader`, which captures
  exactly the synchronous phase of the JS promise pipeline: `Promise.all`
  over `map(deploy)` runs every `deploy` body synchronously in order, and
  an exception thrown in one of them aborts the run while earlier deploy
  calls are already in flight.

Recursive scanners are written with an explicit fuel argument equal to the
input length so that every definition is structurally recursive and
evaluates inside the kernel; the fuel is always sufficient because each
step consumes at least one character.
-/

namespace Web3Loader

/-- One input parameter of an ABI member: its name and solidity type. -/
structure AbiInput where
  name : String
  type : String
deriving DecidableEq, Repr

/-- One ABI member: a type tag (for example "constructor") and its inputs. -/
structure AbiItem where
  type : String
  inputs : List AbiInput
deriving DecidableEq, Repr

/-- A compiled contract artifact.  In the source the `address` property is
absent until it is assigned (only the reuse branch of `deploy` ever assigns
it), which is modelled by an `Option` that starts out as `none`. -/
structure Contract where
  name : String
  abi : List AbiItem
  bytecode : String
  address : Option String := none
deriving DecidableEq, Repr

/-- Errors surfaced by the modelled program: `userError` is an explicitly
`throw`n `Error(message)`, `typeError` is the runtime `TypeError` raised by
accessing a property of `undefined` or calling a method on `undefined`. -/
inductive JsErr where
  | typeError (msg : String)
  | userError (msg : String)
deriving DecidableEq, Repr

instance {ε α : Type} [DecidableEq ε] [DecidableEq α] : DecidableEq (Except ε α)
  | .error a, .error b =>
    if h : a = b then .isTrue (by rw [h]) else .isFalse (fun hh => by cases hh; exact h rfl)
  | .error _, .ok _ => .isFalse (fun hh => by cases hh)
  | .ok _, .error _ => .isFalse (fun hh => by cases hh)
  | .ok a, .ok b =>
    if h : a = b then .isTrue (by rw [h]) else .isFalse (fun hh => by cases hh; exact h rfl)

/-- `s.startsWith(pre)`, computed on the character lists (the standard
library's byte-position implementation does not reduce in the kernel). -/
def strStartsWith (s pre : String) : Bool := pre.data.isPrefixOf s.data

/-- JS object property lookup, modelled on an association list. -/
def lookupStr {α : Type} (m : List (String × α)) (k : String) : Option α :=
  match m with
  | [] => none
  | p :: rest => if p.1 = k then some p.2 else lookupStr rest k

/-- Fuelled scanner for the loop
`while ((matches = regex.exec(bytecode)) !== null)` with
`regex = /__([^_]*)_*/g` in `getDependenciesFromBytecode`: find the leftmost
`__`, capture the greedy run of non-underscore characters, skip the greedy
run of trailing underscores, emit the capture, and continue after the match.
Fuel `≥` input length suffices since every step consumes a character. -/
def scanDepsF : Nat → List Char → List String
  | 0, _ => []
  | _, [] => []
  | f + 1, '_' :: '_' :: rest =>
      (rest.takeWhile (fun c => c != '_')).asString ::
        scanDepsF f ((rest.dropWhile (fun c => c != '_')).dropWhile (fun c => c == '_'))
  | f + 1, _ :: rest => scanDepsF f rest

/-- First-occurrence deduplication (`if (dependencies.indexOf(libName) === -1)
dependencies.push(libName)` in the source), with the already-kept names as
the `seen` accumulator. -/
def dedupAux : List String → List String → List String
  | [], _ => []
  | x :: xs, seen => if x ∈ seen then dedupAux xs seen else x :: dedupAux xs (x :: seen)

/-- Keep the first occurrence of every element, in order. -/
def dedupKeepFirst (l : List String) : List String := dedupAux l []

/-- `getDependenciesFromBytecode(bytecode)`: all distinct captures of the
placeholder pattern `/__([^_]*)_*/g`, in order of first occurrence. -/
def getDependenciesFromBytecode (bytecode : String) : List String :=
  dedupKeepFirst (scanDepsF bytecode.data.length bytecode.data)

/-- `getDependenciesFromConstructor(abi)`: the inputs of the first
ABI member whose type is "constructor" (or `[]` when there is none),
restricted to parameters whose name starts with "inject_" and whose type is
"address", with the prefix (7 characters) stripped and first-occurrence
deduplication applied. -/
def getDependenciesFromConstructor (abi : List AbiItem) : List String :=
  let firstConstructorInputs :=
    (((abi.filter (fun item => item.type == "constructor")).head?).map AbiItem.inputs).getD []
  dedupKeepFirst
    ((firstConstructorInputs.filter
        (fun input => strStartsWith input.name "inject_" && input.type == "address")).map
      (fun input => input.name.drop 7))

/-- `getDependencies(contract)`: bytecode-derived names concatenated with
constructor-derived names (the source applies no deduplication across the
two sources). -/
def getDependencies (contract : Contract) : List String :=
  getDependenciesFromBytecode contract.bytecode ++ getDependenciesFromConstructor contract.abi

/-- `dependencyAddress.replace("0x", "")`: remove the first occurrence of
the two-character sequence `0x` (a string pattern in JS replaces only the
first occurrence). -/
def strip0x : List Char → List Char
  | '0' :: 'x' :: rest => rest
  | c :: rest => c :: strip0x rest
  | [] => []

/-- Fuelled model of `binary.replace(re, binAddress)` with
`re = new RegExp("__" + dependencyName + "_*", "g")` for a dependency name
without regular-expression metacharacters (captures of `/__([^_]*)_*/` never
contain an underscore): repeatedly find the leftmost occurrence of the
literal pattern, greedily consume trailing underscores, splice in the
replacement and continue after the match. -/
def replaceAllPatF (pat rep : List Char) : Nat → List Char → List Char
  | 0, l => l
  | _, [] => []
  | f + 1, c :: cs =>
    if pat.isPrefixOf (c :: cs) then
      rep ++ replaceAllPatF pat rep f (((c :: cs).drop pat.length).dropWhile (fun d => d == '_'))
    else c :: replaceAllPatF pat rep f cs

/-- `linkDependency(binary, dependencyName, dependencyAddress)`. -/
def linkDependency (binary dependencyName dependencyAddress : String) : String :=
  let binAddress := (strip0x dependencyAddress.data).asString
  let pat := '_' :: '_' :: dependencyName.data
  (replaceAllPatF pat binAddress.data binary.data.length binary.data).asString

/-- Message of the `TypeError` raised by `allContracts[depName].address`
when `allContracts[depName]` is `undefined`; it does not mention the
dependency name. -/
def cannotReadAddressMsg : String := "Cannot read property address of undefined"

/-- Message of the `TypeError` raised by `dependencyAddress.replace(...)`
when the address is `undefined`; it does not mention the dependency name. -/
def replaceUndefinedMsg : String := "dependencyAddress.replace is not a function"

/-- One iteration of the loop in `linkBytecode`: look the dependency up in
`allContracts` (a `TypeError` if absent), read its address (a `TypeError`
inside `linkDependency` if undefined) and substitute it into the bytecode. -/
def linkStep (allContracts : List (String × Contract)) (c : Contract) (depName : String) :
    Except JsErr Contract :=
  match lookupStr allContracts depName with
  | none => .error (.typeError cannotReadAddressMsg)
  | some depC =>
    match depC.address with
    | none => .error (.typeError replaceUndefinedMsg)
    | some addr => .ok { c with bytecode := linkDependency c.bytecode depName addr }

/-- `linkBytecode(contract, allContracts)`: compute the bytecode dependency
list once, then fold the per-dependency substitution over it, mutating the
bytecode. -/
def linkBytecode (c : Contract) (allContracts : List (String × Contract)) :
    Except JsErr Contract :=
  (getDependenciesFromBytecode c.bytecode).foldlM (linkStep allContracts) c

/-- Run configuration (`from` is a keyword in Lean, hence `fromAccount`).
`constructorParams` values are modelled as lists of opaque strings. -/
structure Config where
  fromAccount : String
  gasLimit : Nat
  constructorParams : List (String × List String)
  deployedContracts : List (String × String)
deriving DecidableEq, Repr

/-- Message of the error thrown by `resolveConstructorParams` for a
constructor-injected dependency whose address is undefined (or empty, since
`if (address)` is false for the empty string); it names the dependency. -/
def unresolvedMsg (dep : String) : String :=
  "Contract " ++ dep ++ " was not deployed because its address is undefined"

/-- One iteration of the `injectableDependencies.forEach` loop in
`resolveConstructorParams`. -/
def resolveStep (contractMap : List (String × Contract)) (params : List String)
    (dep : String) : Except JsErr (List String) :=
  match lookupStr contractMap dep with
  | none => .error (.typeError cannotReadAddressMsg)
  | some depC =>
    match depC.address with
    | some a => if a != "" then .ok (params ++ [a]) else .error (.userError (unresolvedMsg dep))
    | none => .error (.userError (unresolvedMsg dep))

/-- `resolveConstructorParams(config, contract, contractMap)`: the caller's
configured parameters for this contract (or `[]`), extended with the
resolved address of each constructor-injected dependency in extraction
order. -/
def resolveConstructorParams (config : Config) (contract : Contract)
    (contractMap : List (String × Contract)) : Except JsErr (List String) :=
  (getDependenciesFromConstructor contract.abi).foldlM (resolveStep contractMap)
    ((lookupStr config.constructorParams contract.name).getD [])

/-- What `deploy` does to one contract: either reuse a configured address
(no linking, no deploy call) or link, resolve the constructor arguments and
hand the linked contract to the external deploy capability. -/
inductive DeployOutcome where
  | reused (c : Contract)
  | deployed (c : Contract) (params : List String) (fromAccount : String) (gas : Nat)
deriving DecidableEq, Repr

/-- The synchronous body of `deploy(config, contract, contractMap)`:
the reuse branch returns before any linking; otherwise `linkBytecode` runs,
then `resolveConstructorParams`, and only then is the external
`.deploy({arguments: params}).send(options)` call made. -/
def deploy (config : Config) (contract : Contract)
    (contractMap : List (String × Contract)) : Except JsErr DeployOutcome :=
  match lookupStr config.deployedContracts contract.name with
  | some addr => .ok (.reused { contract with address := some addr })
  | none =>
    match linkBytecode contract contractMap with
    | .error e => .error e
    | .ok linked =>
      match resolveConstructorParams config linked contractMap with
      | .error e => .error e
      | .ok params => .ok (.deployed linked params config.fromAccount config.gasLimit)

/-- Directed graph over contract names: node list and edge list in insertion
order, never containing duplicates.  Models the graph object of the graph
library used by `buildDependencyGraph`. -/
structure Graph where
  nodes : List String
  edges : List (String × String)
deriving DecidableEq, Repr

/-- `g.setNode(n)`: insert a node if absent. -/
def Graph.setNode (g : Graph) (n : String) : Graph :=
  if n ∈ g.nodes then g else { g with nodes := g.nodes ++ [n] }

/-- `g.setEdge(u, v)`: ensure both endpoints exist as nodes and insert the
directed edge if absent (the graph is not a multigraph). -/
def Graph.setEdge (g : Graph) (u v : String) : Graph :=
  let g1 := (g.setNode u).setNode v
  if (u, v) ∈ g1.edges then g1 else { g1 with edges := g1.edges ++ [(u, v)] }

/-- Bounded reachability: `reachN es n u v` holds when there is an edge path
from `u` to `v` with at least one and at most `n` edges. -/
def reachN (es : List (String × String)) : Nat → String → String → Bool
  | 0, _, _ => false
  | n + 1, u, v => es.any (fun e => e.1 == u && (e.2 == v || reachN es n e.2 v))

/-- Modelled from the spec: the graph library's `isAcyclic` (the library is
external to this repository; the spec describes it as "a standard DFS-based
cycle check").  A graph whose edge endpoints are all nodes has a cycle
exactly when some node reaches itself by a nonempty path, and a shortest
such path has at most `nodes.length` edges. -/
def Graph.isAcyclic (g : Graph) : Bool :=
  !(g.nodes.any (fun u => reachN g.edges g.nodes.length u u))

/-- The message of the error thrown when an edge insertion creates a cycle
(the typo "inroduces" is the source's). -/
def cycleMsg (fromName toName : String) : String :=
  "Dependency " ++ fromName ++ " -> " ++ toName ++ " inroduces cycle"

/-- The body of the inner loop of `buildDependencyGraph`: ensure a node for
the dependency, insert the edge `contractName → depName`, and fail with the
cycle error if the graph stopped being acyclic. -/
def addDepEdge (contractName : String) (g : Graph) (depName : String) :
    Except JsErr Graph :=
  let g2 := (g.setNode depName).setEdge contractName depName
  if g2.isAcyclic then .ok g2 else .error (.userError (cycleMsg contractName depName))

/-- The body of the outer loop of `buildDependencyGraph`: ensure a node for
the contract, then insert one edge per extracted dependency. -/
def addArtifact (g : Graph) (contract : Contract) : Except JsErr Graph :=
  (getDependencies contract).foldlM (addDepEdge contract.name) (g.setNode contract.name)

/-- `buildDependencyGraph(contracts)`. -/
def buildDependencyGraph (contracts : List Contract) : Except JsErr Graph :=
  contracts.foldlM addArtifact { nodes := [], edges := [] }

/-- Successors of `v` in edge-insertion order, as the graph library's
`successors` returns them. -/
def succOf (es : List (String × String)) (v : String) : List String :=
  (es.filter (fun e => e.1 == v)).map Prod.snd

/-- Modelled from the spec: the graph library's depth-first post-order
traversal (`postorder(g, g.nodes())`), which the spec describes as a
"post-order depth-first traversal over all graph nodes, visiting nodes in
the graph's input order and, within each node's exploration, its edges in
insertion order".  The state is `(visited, emitted)`; a node is emitted
after its successor exploration finishes.  The fuel argument makes the
recursion structural; `dfsFuel` below is always sufficient. -/
def dfsPost (succ : String → List String) : Nat → List String → List String → List String →
    List String × List String
  | 0, _, vis, acc => (vis, acc)
  | _, [], vis, acc => (vis, acc)
  | f + 1, v :: vs, vis, acc =>
    if v ∈ vis then dfsPost succ f vs vis acc
    else
      let p := dfsPost succ f (succ v) (v :: vis) acc
      dfsPost succ f vs p.1 (p.2 ++ [v])

/-- A fuel budget sufficient for `dfsPost` started on all nodes of `g`. -/
def dfsFuel (g : Graph) : Nat := g.nodes.length + g.nodes.length * (1 + g.edges.length)

/-- The deployment ordering computed in `sortByDependencies`:
`GraphAlgorithms.postorder(depsGraph, depsGraph.nodes())`. -/
def postorderG (g : Graph) : List String :=
  (dfsPost (succOf g.edges) (dfsFuel g) g.nodes [] []).2

/-- Stable insertion into a list sorted by a numeric key. -/
def insertByKey (key : Contract → Nat) (c : Contract) : List Contract → List Contract
  | [] => [c]
  | d :: ds => if key c < key d then c :: d :: ds else d :: insertByKey key c ds

/-- Deterministic model of `compiledContracts.sort(comparator)` where the
comparator compares positions in the deployment ordering (in the runs we
consider the keys are distinct, so every comparison sort agrees). -/
def sortByKey (key : Contract → Nat) : List Contract → List Contract
  | [] => []
  | c :: cs => insertByKey key c (sortByKey key cs)

/-- Observable actions of the deployment phase: the reuse branch records a
configured address; `deployCall` is the moment `deploy(...).send(...)` is
invoked on the external client, i.e. a deployment goes in flight. -/
inductive Event where
  | reusedContract (name : String)
  | deployCall (name : String) (bytecode : String) (params : List String)
deriving DecidableEq, Repr

/-- Mutation of the shared artifact object seen through the contract map. -/
def updateMap (m : List (String × Contract)) (k : String) (v : Contract) :
    List (String × Contract) :=
  m.map (fun p => if p.1 = k then (p.1, v) else p)

/-- The synchronous phase of `Promise.all(compiledContracts.map(deploy))`:
each `deploy` body runs synchronously in sorted order; a deploy call is
merely initiated (no address is ever written back to the artifact map for
it), and a thrown error aborts the loop with the deploy calls made so far
already in flight. -/
def deployPhase (config : Config) :
    List Contract → List (String × Contract) → List Event → List Event × Option JsErr
  | [], _, evs => (evs, none)
  | c :: rest, cmap, evs =>
    match deploy config c cmap with
    | .error e => (evs, some e)
    | .ok (.reused c') =>
        deployPhase config rest (updateMap cmap c.name c') (evs ++ [.reusedContract c.name])
    | .ok (.deployed linked params _ _) =>
        deployPhase config rest (updateMap cmap c.name linked)
          (evs ++ [.deployCall c.name linked.bytecode params])

/-- The loader run on a contract map: sort by dependencies (a cycle error
here aborts before anything is deployed), then run the synchronous phase of
the deployment pipeline in sorted order. -/
def runLoader (config : Config) (contracts : List Contract) : List Event × Option JsErr :=
  match buildDependencyGraph contracts with
  | .error e => ([], some e)
  | .ok g =>
    let ordering := postorderG g
    let sorted := sortByKey (fun c => ordering.indexOf c.name) contracts
    deployPhase config sorted (contracts.map (fun c => (c.name, c))) []

/-- The edge relation of a list of edges. -/
def edgeRel (es : List (String × String)) (a b : String) : Prop := (a, b) ∈ es

/-- Propositional acyclicity: no node reaches itself by a nonempty path. -/
def Acyclic (es : List (String × String)) : Prop :=
  ∀ x, ¬ Relation.TransGen (edgeRel es) x x

/-- Well-formedness of a graph: every edge endpoint is a node. -/
def WFGraph (g : Graph) : Prop := ∀ e ∈ g.edges, e.1 ∈ g.nodes ∧ e.2 ∈ g.nodes

/-- The dependency edges derived from an artifact list, in processing
order: one edge `(contract name, dependency name)` per extracted
dependency. -/
def artifactEdges (contracts : List Contract) : List (String × String) :=
  (contracts.map (fun c => (getDependencies c).map (fun d => (c.name, d)))).flatten

/-- The post-order invariant: every emitted node's successors are either
still on the gray stack `gray` or were emitted strictly earlier. -/
def PostOrd (es : List (String × String)) (acc gray : List String) : Prop :=
  ∀ v ∈ acc, ∀ w, (v, w) ∈ es → w ∈ gray ∨ (w ∈ acc ∧ acc.indexOf w < acc.indexOf v)

/-- Number of nodes of `univ` not yet visited. -/
def unvisitedCount (univ vis : List String) : Nat :=
  (univ.filter (fun x => decide (x ∉ vis))).length

/-- The address of `dep` as the running contract map records it (empty when
absent or undefined); total companion of the lookups in
`resolveConstructorParams`. -/
def recordedAddr (contractMap : List (String × Contract)) (dep : String) : String :=
  match lookupStr contractMap dep with
  | some c => c.address.getD ""
  | none => ""

/-! ### Concrete fixtures used by witnesses and counterexamples -/

/-- Artifact `D` whose bytecode placeholder and constructor injection both
name `Lib`. -/
def c4art : Contract :=
  { name := "D",
    abi := [{ type := "constructor", inputs := [{ name := "inject_Lib", type := "address" }] }],
    bytecode := "600a__Lib__600b" }

/-- Artifact whose only bytecode dependency is `Lib`. -/
def c5art : Contract := { name := "E", abi := [], bytecode := "__Lib__" }

/-- A contract map recording an empty address for `Lib`. -/
def c5map : List (String × Contract) :=
  [("Lib", { name := "Lib", abi := [], bytecode := "", address := some "" })]

/-- Artifact with an unresolvable bytecode dependency `X`. -/
def c5art2 : Contract := { name := "F", abi := [], bytecode := "__X__" }

/-- Artifact whose bytecode contains the placeholders `__A__` and `__AB__`
(the name `A` is a prefix of the name `AB`). -/
def c6art : Contract := { name := "C", abi := [], bytecode := "__A__x__AB__y" }

/-- A contract map resolving both `A` and `AB` with nonempty addresses. -/
def c6map : List (String × Contract) :=
  [("A", { name := "A", abi := [], bytecode := "", address := some "0xaa" }),
   ("AB", { name := "AB", abi := [], bytecode := "", address := some "0xbb" })]

/-- Artifact with the single placeholder `__A__`. -/
def c6art2 : Contract := { name := "G", abi := [], bytecode := "__A__" }

/-- The artifact `c6art2` after a successful link against `c6map`. -/
def c6linked : Contract := { name := "G", abi := [], bytecode := "aa" }

/-- A run configuration with no overrides. -/
def c2config : Config :=
  { fromAccount := "acct", gasLimit := 0, constructorParams := [], deployedContracts := [] }

/-- Artifact `A`, whose bytecode depends on `B`. -/
def c2artA : Contract := { name := "A", abi := [], bytecode := "__B__" }

/-- Artifact `B`, with no dependencies. -/
def c2artB : Contract := { name := "B", abi := [], bytecode := "6001" }

/-- The dependency graph of `[c2artA, c2artB]`. -/
def c2graph : Graph := { nodes := ["A", "B"], edges := [("A", "B")] }

/-- Artifact `A` depending on itself through its own bytecode placeholder. -/
def c3artSelf : Contract := { name := "A", abi := [], bytecode := "__A__" }

/-- A configuration that supplies an address for contract `B`. -/
def c8config : Config :=
  { fromAccount := "acct", gasLimit := 9, constructorParams := [],
    deployedContracts := [("B", "0xABC")] }

/-- Artifact `B` as a reuse candidate. -/
def c8artB : Contract := { name := "B", abi := [], bytecode := "6002" }

/-- A configuration with caller-supplied constructor parameters for `H`. -/
def c9config : Config :=
  { fromAccount := "acct", gasLimit := 7, constructorParams := [("H", ["p1", "p2"])],
    deployedContracts := [] }

/-- Artifact `H` with two constructor-injected dependencies. -/
def c9art : Contract :=
  { name := "H",
    abi := [{ type := "constructor",
              inputs := [{ name := "inject_L1", type := "address" },
                         { name := "inject_L2", type := "address" }] }],
    bytecode := "6003" }

/-- A contract map resolving `L1` and `L2`. -/
def c9map : List (String × Contract) :=
  [("L1", { name := "L1", abi := [], bytecode := "", address := some "0x11" }),
   ("L2", { name := "L2", abi := [], bytecode := "", address := some "0x22" })]

/-- A contract map in which `L2` has no address yet. -/
def c9map2 : List (String × Contract) :=
  [("L1", { name := "L1", abi := [], bytecode := "", address := some "0x11" }),
   ("L2", { name := "L2", abi := [], bytecode := "" })]

instance (es : List (String × String)) (a b : String) : Decidable (edgeRel es a b) :=
  inferInstanceAs (Decidable ((a, b) ∈ es))

instance (g : Graph) : Decidable (WFGraph g) :=
  inferInstanceAs (Decidable (∀ e ∈ g.edges, e.1 ∈ g.nodes ∧ e.2 ∈ g.nodes))

/-- Invariant of every graph the builder keeps working with: node list
without duplicates, edge endpoints are nodes, and no cycle. -/
def GoodG (g : Graph) : Prop := g.nodes.Nodup ∧ WFGraph g ∧ Acyclic g.edges

/-- A graph on which `c7_edge_insertion_transactional` is exercised. -/
def c7graph : Graph := { nodes := ["P", "Q"], edges := [("P", "Q")] }

/-- Two artifacts forming a two-cycle through their bytecode placeholders. -/
def c7artP : Contract := { name := "P", abi := [], bytecode := "__Q__" }

/-- Second half of the two-cycle `P → Q → P`. -/
def c7artQ : Contract := { name := "Q", abi := [], bytecode := "__P__" }

/-! ## Helper lemmas -/

theorem except_bind_ok {ε α β : Type} (a : α) (f : α → Except ε β) :
    (Except.ok a >>= f : Except ε β) = f a := rfl

theorem except_bind_error {ε α β : Type} (e : ε) (f : α → Except ε β) :
    (Except.error e >>= f : Except ε β) = .error e := rfl

theorem dedupAux_not_mem_seen :
    ∀ (l seen : List String), ∀ x ∈ dedupAux l seen, x ∉ seen := by
  intro l
  induction l with
  | nil => intro seen x hx; cases hx
  | cons a l ih =>
    intro seen x hx
    by_cases ha : a ∈ seen
    · rw [dedupAux, if_pos ha] at hx
      exact ih seen x hx
    · rw [dedupAux, if_neg ha] at hx
      cases hx with
      | head => exact ha
      | tail _ h =>
        intro hs
        exact ih (a :: seen) x h (List.mem_cons_of_mem _ hs)

theorem dedupAux_nodup : ∀ (l seen : List String), (dedupAux l seen).Nodup := by
  intro l
  induction l with
  | nil => intro seen; exact List.nodup_nil
  | cons a l ih =>
    intro seen
    by_cases ha : a ∈ seen
    · rw [dedupAux, if_pos ha]; exact ih seen
    · rw [dedupAux, if_neg ha]
      refine List.nodup_cons.2 ⟨?_, ih (a :: seen)⟩
      intro hmem
      exact dedupAux_not_mem_seen l (a :: seen) a hmem (List.mem_cons_self a seen)

theorem mem_dedupAux :
    ∀ (l seen : List String) (x : String), x ∈ dedupAux l seen ↔ x ∈ l ∧ x ∉ seen := by
  intro l
  induction l with
  | nil => intro seen x; simp [dedupAux]
  | cons a l ih =>
    intro seen x
    by_cases ha : a ∈ seen
    · rw [dedupAux, if_pos ha, ih]
      constructor
      · rintro ⟨h1, h2⟩; exact ⟨List.mem_cons_of_mem _ h1, h2⟩
      · rintro ⟨h1, h2⟩
        cases List.mem_cons.1 h1 with
        | inl h => exact absurd ha (h ▸ h2)
        | inr h => exact ⟨h, h2⟩
    · rw [dedupAux, if_neg ha]
      constructor
      · intro hx
        cases List.mem_cons.1 hx with
        | inl h => exact ⟨h ▸ List.mem_cons_self a l, h ▸ ha⟩
        | inr h =>
          have := (ih (a :: seen) x).1 h
          exact ⟨List.mem_cons_of_mem _ this.1,
            fun hs => this.2 (List.mem_cons_of_mem _ hs)⟩
      · rintro ⟨h1, h2⟩
        cases List.mem_cons.1 h1 with
        | inl h => exact h ▸ List.mem_cons_self a _
        | inr h =>
          by_cases hxa : x = a
          · exact hxa ▸ List.mem_cons_self a _
          · exact List.mem_cons_of_mem _
              ((ih (a :: seen) x).2 ⟨h, by
                intro hs
                cases List.mem_cons.1 hs with
                | inl hh => exact hxa hh
                | inr hh => exact h2 hh⟩)

theorem dedupKeepFirst_nodup (l : List String) : (dedupKeepFirst l).Nodup :=
  dedupAux_nodup l []

theorem getDependenciesFromBytecode_nodup (s : String) :
    (getDependenciesFromBytecode s).Nodup := dedupKeepFirst_nodup _

theorem getDependenciesFromConstructor_nodup (abi : List AbiItem) :
    (getDependenciesFromConstructor abi).Nodup := dedupKeepFirst_nodup _

theorem mem_dedupKeepFirst (l : List String) (x : String) :
    x ∈ dedupKeepFirst l ↔ x ∈ l := by
  rw [dedupKeepFirst, mem_dedupAux]
  simp

theorem linkStep_fields (m : List (String × Contract)) (c c' : Contract) (d : String)
    (h : linkStep m c d = .ok c') :
    c'.name = c.name ∧ c'.abi = c.abi ∧ c'.address = c.address := by
  unfold linkStep at h
  cases hl : lookupStr m d with
  | none => rw [hl] at h; cases h
  | some depC =>
    rw [hl] at h
    dsimp only at h
    cases ha : depC.address with
    | none => rw [ha] at h; cases h
    | some a => rw [ha] at h; cases h; exact ⟨rfl, rfl, rfl⟩

theorem link_fold_fields :
    ∀ (deps : List String) (m : List (String × Contract)) (c c' : Contract),
      deps.foldlM (linkStep m) c = .ok c' →
      c'.name = c.name ∧ c'.abi = c.abi ∧ c'.address = c.address := by
  intro deps
  induction deps with
  | nil =>
    intro m c c' h
    rw [List.foldlM_nil] at h
    cases h
    exact ⟨rfl, rfl, rfl⟩
  | cons d rest ih =>
    intro m c c' h
    rw [List.foldlM_cons] at h
    cases hs : linkStep m c d with
    | error e => rw [hs, except_bind_error] at h; cases h
    | ok c1 =>
      rw [hs, except_bind_ok] at h
      have h1 := linkStep_fields m c c1 d hs
      have h2 := ih m c1 c' h
      exact ⟨h2.1.trans h1.1, h2.2.1.trans h1.2.1, h2.2.2.trans h1.2.2⟩

theorem linkBytecode_fields (c c' : Contract) (m : List (String × Contract))
    (h : linkBytecode c m = .ok c') :
    c'.name = c.name ∧ c'.abi = c.abi ∧ c'.address = c.address :=
  link_fold_fields _ m c c' h

theorem link_fold_ok :
    ∀ (deps : List String) (m : List (String × Contract)) (c : Contract),
      (∀ d ∈ deps, ∃ dc a, lookupStr m d = some dc ∧ dc.address = some a) →
      ∃ c', deps.foldlM (linkStep m) c = .ok c' := by
  intro deps
  induction deps with
  | nil => intro m c _; exact ⟨c, rfl⟩
  | cons d rest ih =>
    intro m c hall
    obtain ⟨dc, a, hdc, ha⟩ := hall d (List.mem_cons_self d rest)
    have hstep : linkStep m c d = .ok { c with bytecode := linkDependency c.bytecode d a } := by
      unfold linkStep; rw [hdc]; dsimp only; rw [ha]
    rw [List.foldlM_cons, hstep, except_bind_ok]
    exact ih m _ (fun d' hd' => hall d' (List.mem_cons_of_mem _ hd'))

theorem fold_error_of_prefix_ok {α : Type}
    (f : Contract → α → Except JsErr Contract) (e : JsErr) :
    ∀ (l1 : List α) (d : α) (l2 : List α) (c : Contract),
      (∀ b : Contract, ∀ a ∈ l1, ∃ b', f b a = .ok b') →
      (∀ b : Contract, f b d = .error e) →
      (l1 ++ d :: l2).foldlM f c = .error e := by
  intro l1
  induction l1 with
  | nil =>
    intro d l2 c _ hd
    rw [List.nil_append, List.foldlM_cons, hd c, except_bind_error]
  | cons a l1 ih =>
    intro d l2 c hok hd
    obtain ⟨b', hb'⟩ := hok c a (List.mem_cons_self a l1)
    rw [List.cons_append, List.foldlM_cons, hb', except_bind_ok]
    exact ih d l2 b' (fun b x hx => hok b x (List.mem_cons_of_mem _ hx)) hd

theorem resolve_fold_ok :
    ∀ (deps : List String) (cmap : List (String × Contract)) (init : List String),
      (∀ d ∈ deps, ∃ dc a, lookupStr cmap d = some dc ∧ dc.address = some a ∧ a ≠ "") →
      deps.foldlM (resolveStep cmap) init = .ok (init ++ deps.map (recordedAddr cmap)) := by
  intro deps
  induction deps with
  | nil =>
    intro cmap init _
    rw [List.foldlM_nil]
    simp only [List.map_nil, List.append_nil]
    rfl
  | cons d rest ih =>
    intro cmap init hall
    obtain ⟨dc, a, hdc, ha, hne⟩ := hall d (List.mem_cons_self d rest)
    have hrec : recordedAddr cmap d = a := by
      rw [recordedAddr, hdc]; dsimp only; rw [ha]; rfl
    have hstep : resolveStep cmap init d = .ok (init ++ [a]) := by
      rw [resolveStep, hdc]; dsimp only; rw [ha]; dsimp only
      rw [if_pos (bne_iff_ne.2 hne)]
    rw [List.foldlM_cons, hstep, except_bind_ok,
      ih cmap _ (fun d' hd' => hall d' (List.mem_cons_of_mem _ hd'))]
    simp [hrec]

theorem resolve_fold_error {α : Type}
    (f : List String → α → Except JsErr (List String)) (e : JsErr) :
    ∀ (l1 : List α) (d : α) (l2 : List α) (init : List String),
      (∀ b : List String, ∀ a ∈ l1, ∃ b', f b a = .ok b') →
      (∀ b : List String, f b d = .error e) →
      (l1 ++ d :: l2).foldlM f init = .error e := by
  intro l1
  induction l1 with
  | nil =>
    intro d l2 init _ hd
    rw [List.nil_append, List.foldlM_cons, hd init, except_bind_error]
  | cons a l1 ih =>
    intro d l2 init hok hd
    obtain ⟨b', hb'⟩ := hok init a (List.mem_cons_self a l1)
    rw [List.cons_append, List.foldlM_cons, hb', except_bind_ok]
    exact ih d l2 b' (fun b x hx => hok b x (List.mem_cons_of_mem _ hx)) hd

theorem deployPhase_no_call_aux (config : Config) (n : String) (addr : String)
    (h : lookupStr config.deployedContracts n = some addr) :
    ∀ (contracts : List Contract) (cmap : List (String × Contract)) (evs : List Event),
      (∀ ev ∈ evs, ∀ b p, ev ≠ Event.deployCall n b p) →
      ∀ ev ∈ (deployPhase config contracts cmap evs).1, ∀ b p, ev ≠ Event.deployCall n b p := by
  intro contracts
  induction contracts with
  | nil => intro cmap evs hevs; exact hevs
  | cons c rest ih =>
    intro cmap evs hevs
    rw [deployPhase]
    by_cases hn : c.name = n
    · have hdep : deploy config c cmap = .ok (.reused { c with address := some addr }) := by
        rw [deploy, hn, h]
      rw [hdep]
      refine ih _ _ ?_
      intro ev hev b p
      cases List.mem_append.1 hev with
      | inl hl => exact hevs ev hl b p
      | inr hr =>
        cases hr with
        | head => intro hh; cases hh
        | tail _ hh => cases hh
    · cases hdep : deploy config c cmap with
      | error e => exact hevs
      | ok outcome =>
        cases outcome with
        | reused c' =>
          refine ih _ _ ?_
          intro ev hev b p
          cases List.mem_append.1 hev with
          | inl hl => exact hevs ev hl b p
          | inr hr =>
            cases hr with
            | head => intro hh; cases hh
            | tail _ hh => cases hh
        | deployed linked params fa g =>
          refine ih _ _ ?_
          intro ev hev b p
          cases List.mem_append.1 hev with
          | inl hl => exact hevs ev hl b p
          | inr hr =>
            cases hr with
            | head => intro hh; cases hh; exact hn rfl
            | tail _ hh => cases hh

/-! ## Reachability, chains and acyclicity -/

theorem reachN_mono (es : List (String × String)) :
    ∀ {m n : Nat}, m ≤ n → ∀ {u v : String},
      reachN es m u v = true → reachN es n u v = true := by
  intro m
  induction m with
  | zero => intro n _ u v h; rw [reachN] at h; cases h
  | succ m ih =>
    intro n hmn u v h
    obtain ⟨n', rfl⟩ : ∃ n', n = n' + 1 := ⟨n - 1, by omega⟩
    rw [reachN, List.any_eq_true] at h ⊢
    obtain ⟨e, he, hp⟩ := h
    refine ⟨e, he, ?_⟩
    rw [Bool.and_eq_true] at hp ⊢
    refine ⟨hp.1, ?_⟩
    rw [Bool.or_eq_true] at hp ⊢
    cases hp.2 with
    | inl h1 => exact Or.inl h1
    | inr h2 => exact Or.inr (ih (by omega) h2)

theorem reachN_sound (es : List (String × String)) :
    ∀ (n : Nat) (u v : String), reachN es n u v = true →
      Relation.TransGen (edgeRel es) u v := by
  intro n
  induction n with
  | zero => intro u v h; rw [reachN] at h; cases h
  | succ n ih =>
    intro u v h
    rw [reachN, List.any_eq_true] at h
    obtain ⟨e, he, hp⟩ := h
    rw [Bool.and_eq_true, beq_iff_eq] at hp
    obtain ⟨h1, hp2⟩ := hp
    rw [Bool.or_eq_true, beq_iff_eq] at hp2
    cases hp2 with
    | inl h2 =>
      exact Relation.TransGen.single (show edgeRel es u v by
        rw [edgeRel]; rw [← h1, ← h2]; exact he)
    | inr h2 =>
      exact Relation.TransGen.head (show edgeRel es u e.2 by
        rw [edgeRel]; rw [← h1]; exact he) (ih e.2 v h2)

theorem chain_snoc {α : Type} (r : α → α → Prop) :
    ∀ (l : List α) (a b c : α), List.Chain r a l → l.getLast? = some b → r b c →
      List.Chain r a (l ++ [c]) := by
  intro l
  induction l with
  | nil => intro a b c _ hl; cases hl
  | cons x l ih =>
    intro a b c hch hl hr
    cases hch with
    | cons hax hch' =>
      cases l with
      | nil =>
        cases hl
        exact List.Chain.cons hax (List.Chain.cons hr List.Chain.nil)
      | cons y l' =>
        exact List.Chain.cons hax (ih x b c hch' hl hr)

theorem transGen_iff_chain {α : Type} (r : α → α → Prop) (u v : α) :
    Relation.TransGen r u v ↔
      ∃ l, l ≠ [] ∧ List.Chain r u l ∧ l.getLast? = some v := by
  constructor
  · intro h
    induction h with
    | single hr =>
      exact ⟨[_], by simp, List.Chain.cons hr List.Chain.nil, rfl⟩
    | tail _ hr ih =>
      obtain ⟨l, hne, hch, hl⟩ := ih
      exact ⟨l ++ [_], by simp, chain_snoc r l u _ _ hch hl hr, List.getLast?_concat l⟩
  · rintro ⟨l, hne, hch, hl⟩
    clear hne
    induction l generalizing u with
    | nil => cases hl
    | cons x l ih =>
      cases hch with
      | cons hux hch' =>
        cases l with
        | nil => cases hl; exact Relation.TransGen.single hux
        | cons y l' => exact Relation.TransGen.head hux (ih x hch' hl)

theorem chain_elems_target {α : Type} (r : α → α → Prop) :
    ∀ (l : List α) (a : α), List.Chain r a l → ∀ x ∈ l, ∃ y, r y x := by
  intro l
  induction l with
  | nil => intro a _ x hx; cases hx
  | cons b l ih =>
    intro a hch x hx
    cases hch with
    | cons hab hch' =>
      cases hx with
      | head => exact ⟨a, hab⟩
      | tail _ hx' => exact ih b hch' x hx'

theorem dup_split {α : Type} [DecidableEq α] :
    ∀ (l : List α), ¬ l.Nodup → ∃ (x : α) (p q s : List α), l = p ++ x :: q ++ x :: s := by
  intro l
  induction l with
  | nil => intro h; exact absurd List.nodup_nil h
  | cons a l ih =>
    intro h
    rw [List.nodup_cons] at h
    push_neg at h
    by_cases ha : a ∈ l
    · obtain ⟨q, s, rfl⟩ := List.append_of_mem ha
      exact ⟨a, [], q, s, rfl⟩
    · obtain ⟨x, p, q, s, rfl⟩ := ih (h ha)
      exact ⟨x, a :: p, q, s, rfl⟩

theorem nodup_length_le {α : Type} [DecidableEq α] (l S : List α)
    (hn : l.Nodup) (hsub : ∀ x ∈ l, x ∈ S) : l.length ≤ S.length := by
  calc l.length = l.toFinset.card := (List.toFinset_card_of_nodup hn).symm
    _ ≤ S.toFinset.card := Finset.card_le_card (by
        intro x hx
        rw [List.mem_toFinset] at hx ⊢
        exact hsub x hx)
    _ ≤ S.length := List.toFinset_card_le S

theorem chain_reachN (es : List (String × String)) :
    ∀ (l : List String) (u v : String), List.Chain (edgeRel es) u l →
      l.getLast? = some v → reachN es l.length u v = true := by
  intro l
  induction l with
  | nil => intro u v _ hl; cases hl
  | cons x l ih =>
    intro u v hch hl
    cases hch with
    | cons hux hch' =>
      rw [List.length_cons, reachN, List.any_eq_true]
      refine ⟨(u, x), hux, ?_⟩
      rw [Bool.and_eq_true, Bool.or_eq_true]
      refine ⟨by simp, ?_⟩
      cases l with
      | nil => cases hl; exact Or.inl (by simp)
      | cons y l' => exact Or.inr (ih x v hch' hl)

theorem chain_to_reachN (es : List (String × String)) (nodes : List String)
    (hcl : ∀ e ∈ es, e.2 ∈ nodes) :
    ∀ (k : Nat) (l : List String) (u v : String), l.length ≤ k → l ≠ [] →
      List.Chain (edgeRel es) u l → l.getLast? = some v → u ∈ nodes →
      reachN es nodes.length u v = true := by
  intro k
  induction k with
  | zero =>
    intro l u v hk hne _ _ _
    cases l with
    | nil => exact absurd rfl hne
    | cons x l' => simp at hk
  | succ k ih =>
    intro l u v hk hne hch hl hu
    by_cases hlen : l.length ≤ nodes.length
    · exact reachN_mono es hlen (chain_reachN es l u v hch hl)
    · push_neg at hlen
      have hsub : ∀ x ∈ u :: l.dropLast, x ∈ nodes := by
        intro x hx
        cases hx with
        | head => exact hu
        | tail _ hx' =>
          obtain ⟨y, hy⟩ := chain_elems_target _ l u hch x (List.dropLast_subset l hx')
          exact hcl (y, x) hy
      have hnd : ¬ (u :: l.dropLast).Nodup := by
        intro hnd
        have := nodup_length_le _ nodes hnd hsub
        rw [List.length_cons, List.length_dropLast] at this
        omega
      obtain ⟨x, p, q, s, hsplit⟩ := dup_split _ hnd
      have hdl : l.dropLast ++ [v] = l := List.dropLast_append_getLast? v hl
      cases p with
      | nil =>
        rw [List.nil_append] at hsplit
        have hux : u = x := by injection hsplit
        have hldrop : l.dropLast = q ++ x :: s := by injection hsplit
        have hleq : l = q ++ x :: (s ++ [v]) := by
          rw [← hdl, hldrop]
          simp
        rw [hleq] at hch
        have hch2 := (List.chain_split.1 hch).2
        refine ih (s ++ [v]) u v ?_ (by simp) (hux ▸ hch2) (List.getLast?_concat s) hu
        have : l.length = q.length + 1 + (s.length + 1) := by
          rw [hleq]; simp; omega
        have hs1 : (s ++ [v]).length = s.length + 1 := by simp
        omega
      | cons a p' =>
        have hua : u = a := by injection hsplit
        have hldrop : l.dropLast = p' ++ x :: q ++ x :: s := by injection hsplit
        have hleq : l = p' ++ x :: (q ++ x :: (s ++ [v])) := by
          rw [← hdl, hldrop]
          simp
        rw [hleq] at hch
        have h1 := List.chain_split.1 hch
        have h2 := List.chain_split.1 h1.2
        have hch3 : List.Chain (edgeRel es) u (p' ++ x :: (s ++ [v])) :=
          List.chain_split.2 ⟨h1.1, h2.2⟩
        have hlast : (p' ++ x :: (s ++ [v])).getLast? = some v := by
          rw [show p' ++ x :: (s ++ [v]) = (p' ++ x :: s) ++ [v] by simp]
          exact List.getLast?_concat _
        refine ih (p' ++ x :: (s ++ [v])) u v ?_ (by simp) hch3 hlast hu
        have : l.length = p'.length + 1 + q.length + 1 + (s.length + 1) := by
          rw [hleq]; simp; omega
        have : (p' ++ x :: (s ++ [v])).length = p'.length + 1 + (s.length + 1) := by
          simp; omega
        omega

theorem acyclic_of_isAcyclic (g : Graph) (hwf : WFGraph g)
    (h : g.isAcyclic = true) : Acyclic g.edges := by
  intro u htg
  obtain ⟨l, hne, hch, hl⟩ := (transGen_iff_chain (edgeRel g.edges) u u).1 htg
  have hu : u ∈ g.nodes := by
    cases l with
    | nil => exact absurd rfl hne
    | cons x l' =>
      cases hch with
      | cons hux _ => exact (hwf (u, x) hux).1
  have hr : reachN g.edges g.nodes.length u u = true :=
    chain_to_reachN g.edges g.nodes (fun e he => (hwf e he).2) l.length l u u le_rfl hne hch hl hu
  rw [Graph.isAcyclic, Bool.not_eq_true', List.any_eq_false] at h
  exact absurd hr (by simpa using h u hu)

theorem isAcyclic_of_acyclic (g : Graph) (h : Acyclic g.edges) :
    g.isAcyclic = true := by
  rw [Graph.isAcyclic, Bool.not_eq_true', List.any_eq_false]
  intro u _ hr
  exact h u (reachN_sound g.edges g.nodes.length u u hr)

/-! ## Graph operations and the builder invariant -/

theorem setNode_edges (g : Graph) (n : String) : (g.setNode n).edges = g.edges := by
  rw [Graph.setNode]
  split <;> rfl

theorem setNode_mem_nodes (g : Graph) (n x : String) :
    x ∈ (g.setNode n).nodes ↔ x ∈ g.nodes ∨ x = n := by
  rw [Graph.setNode]
  split
  · rename_i h
    constructor
    · exact Or.inl
    · intro hx
      cases hx with
      | inl h1 => exact h1
      | inr h2 => exact h2 ▸ h
  · simp

theorem setNode_nodup (g : Graph) (n : String) (h : g.nodes.Nodup) :
    (g.setNode n).nodes.Nodup := by
  rw [Graph.setNode]
  split
  · exact h
  · rename_i hn
    refine List.nodup_append.2 ⟨h, List.nodup_singleton n, ?_⟩
    intro x hx hx1
    rw [List.mem_singleton] at hx1
    exact hn (hx1 ▸ hx)

theorem setEdge_nodes (g : Graph) (u v : String) :
    (g.setEdge u v).nodes = ((g.setNode u).setNode v).nodes := by
  rw [Graph.setEdge]
  split <;> rfl

theorem setEdge_mem_edges (g : Graph) (u v : String) (e : String × String) :
    e ∈ (g.setEdge u v).edges ↔ e ∈ g.edges ∨ e = (u, v) := by
  rw [Graph.setEdge]
  split
  · rename_i h
    rw [setNode_edges, setNode_edges] at h ⊢
    constructor
    · exact Or.inl
    · intro he
      cases he with
      | inl h1 => exact h1
      | inr h2 => exact h2 ▸ h
  · show e ∈ ((g.setNode u).setNode v).edges ++ [(u, v)] ↔ _
    rw [setNode_edges, setNode_edges]
    simp

theorem setEdge_mem_nodes (g : Graph) (u v x : String) :
    x ∈ (g.setEdge u v).nodes ↔ x ∈ g.nodes ∨ x = u ∨ x = v := by
  rw [setEdge_nodes, setNode_mem_nodes, setNode_mem_nodes]
  tauto

theorem setEdge_nodup (g : Graph) (u v : String) (h : g.nodes.Nodup) :
    (g.setEdge u v).nodes.Nodup := by
  rw [setEdge_nodes]
  exact setNode_nodup _ v (setNode_nodup g u h)

theorem setEdge_wf (g : Graph) (u v : String) (h : WFGraph g) :
    WFGraph (g.setEdge u v) := by
  intro e he
  rw [setEdge_mem_edges] at he
  cases he with
  | inl h1 =>
    obtain ⟨h2, h3⟩ := h e h1
    exact ⟨(setEdge_mem_nodes g u v e.1).2 (Or.inl h2),
      (setEdge_mem_nodes g u v e.2).2 (Or.inl h3)⟩
  | inr h1 =>
    refine ⟨?_, ?_⟩
    · rw [h1, setEdge_mem_nodes]; exact Or.inr (Or.inl rfl)
    · rw [h1, setEdge_mem_nodes]; exact Or.inr (Or.inr rfl)

theorem addDepEdge_ok_inv (cname d : String) (g g' : Graph)
    (h : addDepEdge cname g d = .ok g') :
    g' = (g.setNode d).setEdge cname d ∧
      ((g.setNode d).setEdge cname d).isAcyclic = true := by
  rw [addDepEdge] at h
  by_cases hc : ((g.setNode d).setEdge cname d).isAcyclic = true
  · rw [if_pos hc] at h
    cases h
    exact ⟨rfl, hc⟩
  · rw [if_neg hc] at h
    cases h

theorem addDepEdge_error_inv (cname d : String) (g : Graph) (e : JsErr)
    (h : addDepEdge cname g d = .error e) :
    e = .userError (cycleMsg cname d) ∧
      ((g.setNode d).setEdge cname d).isAcyclic = false := by
  rw [addDepEdge] at h
  by_cases hc : ((g.setNode d).setEdge cname d).isAcyclic = true
  · rw [if_pos hc] at h
    cases h
  · rw [if_neg hc] at h
    cases h
    exact ⟨rfl, Bool.not_eq_true _ ▸ hc⟩

theorem addDepEdge_ok_spec (cname d : String) (g g' : Graph)
    (hg : GoodG g) (h : addDepEdge cname g d = .ok g') :
    GoodG g' ∧
    (∀ x ∈ g.nodes, x ∈ g'.nodes) ∧
    (∀ e ∈ g.edges, e ∈ g'.edges) ∧
    (∀ e ∈ g'.edges, e ∈ g.edges ∨ e = (cname, d)) ∧
    ((cname, d) ∈ g'.edges ∧ d ∈ g'.nodes ∧ cname ∈ g'.nodes) ∧
    (∀ x ∈ g'.nodes, x ∈ g.nodes ∨ x = cname ∨ x = d) := by
  obtain ⟨rfl, hac⟩ := addDepEdge_ok_inv cname d g g' h
  have hnmem : ∀ x, x ∈ ((g.setNode d).setEdge cname d).nodes ↔
      x ∈ g.nodes ∨ x = cname ∨ x = d := by
    intro x
    rw [setEdge_mem_nodes, setNode_mem_nodes]
    tauto
  have hemem : ∀ e, e ∈ ((g.setNode d).setEdge cname d).edges ↔
      e ∈ g.edges ∨ e = (cname, d) := by
    intro e
    rw [setEdge_mem_edges, setNode_edges]
  have hwf : WFGraph ((g.setNode d).setEdge cname d) := by
    refine setEdge_wf _ cname d ?_
    intro e he
    rw [setNode_edges] at he
    obtain ⟨h1, h2⟩ := hg.2.1 e he
    rw [setNode_mem_nodes, setNode_mem_nodes]
    exact ⟨Or.inl h1, Or.inl h2⟩
  refine ⟨⟨setEdge_nodup _ cname d (setNode_nodup g d hg.1), hwf,
      acyclic_of_isAcyclic _ hwf hac⟩, ?_, ?_, ?_, ⟨?_, ?_, ?_⟩, ?_⟩
  · intro x hx; exact (hnmem x).2 (Or.inl hx)
  · intro e he; exact (hemem e).2 (Or.inl he)
  · intro e he; exact (hemem e).1 he
  · exact (hemem (cname, d)).2 (Or.inr rfl)
  · exact (hnmem d).2 (Or.inr (Or.inr rfl))
  · exact (hnmem cname).2 (Or.inr (Or.inl rfl))
  · intro x hx
    cases (hnmem x).1 hx with
    | inl h1 => exact Or.inl h1
    | inr h1 =>
      cases h1 with
      | inl h2 => exact Or.inr (Or.inl h2)
      | inr h2 => exact Or.inr (Or.inr h2)

theorem deps_fold_ok_inv :
    ∀ (deps : List String) (cname : String) (g g' : Graph),
      deps.foldlM (addDepEdge cname) g = .ok g' → GoodG g →
      GoodG g' ∧
      (∀ x ∈ g.nodes, x ∈ g'.nodes) ∧
      (∀ e ∈ g.edges, e ∈ g'.edges) ∧
      (∀ e ∈ g'.edges, e ∈ g.edges ∨ ∃ d ∈ deps, e = (cname, d)) ∧
      (∀ d ∈ deps, (cname, d) ∈ g'.edges ∧ d ∈ g'.nodes) ∧
      (∀ x ∈ g'.nodes, x ∈ g.nodes ∨ x = cname ∨ x ∈ deps) := by
  intro deps
  induction deps with
  | nil =>
    intro cname g g' h hg
    rw [List.foldlM_nil] at h
    cases h
    exact ⟨hg, fun x hx => hx, fun e he => he, fun e he => Or.inl he,
      (by intro d hd; cases hd), fun x hx => Or.inl hx⟩
  | cons d rest ih =>
    intro cname g g' h hg
    rw [List.foldlM_cons] at h
    cases hstep : addDepEdge cname g d with
    | error e => rw [hstep, except_bind_error] at h; cases h
    | ok g2 =>
      rw [hstep, except_bind_ok] at h
      obtain ⟨hgood2, hn2, he2, hprov2, ⟨hmem2, hd2, _⟩, hnprov2⟩ :=
        addDepEdge_ok_spec cname d g g2 hg hstep
      obtain ⟨A, B, C, D, E, F⟩ := ih cname g2 g' h hgood2
      refine ⟨A, fun x hx => B x (hn2 x hx), fun e he => C e (he2 e he), ?_, ?_, ?_⟩
      · intro e he
        cases D e he with
        | inl h1 =>
          cases hprov2 e h1 with
          | inl h2 => exact Or.inl h2
          | inr h2 => exact Or.inr ⟨d, List.mem_cons_self d rest, h2⟩
        | inr h1 =>
          obtain ⟨d', hd', he'⟩ := h1
          exact Or.inr ⟨d', List.mem_cons_of_mem _ hd', he'⟩
      · intro d' hd'
        cases List.mem_cons.1 hd' with
        | inl h1 => exact h1 ▸ ⟨C _ hmem2, B _ hd2⟩
        | inr h1 => exact E d' h1
      · intro x hx
        cases F x hx with
        | inl h1 =>
          cases hnprov2 x h1 with
          | inl h2 => exact Or.inl h2
          | inr h2 =>
            cases h2 with
            | inl h3 => exact Or.inr (Or.inl h3)
            | inr h3 => exact Or.inr (Or.inr (h3 ▸ List.mem_cons_self d rest))
        | inr h1 =>
          cases h1 with
          | inl h2 => exact Or.inr (Or.inl h2)
          | inr h2 => exact Or.inr (Or.inr (List.mem_cons_of_mem _ h2))

theorem deps_fold_error_inv :
    ∀ (deps : List String) (cname : String) (g : Graph) (e : JsErr),
      deps.foldlM (addDepEdge cname) g = .error e → GoodG g →
      ∃ d g1, d ∈ deps ∧ GoodG g1 ∧
        e = .userError (cycleMsg cname d) ∧
        ((g1.setNode d).setEdge cname d).isAcyclic = false ∧
        (∀ ed ∈ g1.edges, ed ∈ g.edges ∨ ∃ d' ∈ deps, ed = (cname, d')) := by
  intro deps
  induction deps with
  | nil =>
    intro cname g e h _
    rw [List.foldlM_nil] at h
    cases h
  | cons d rest ih =>
    intro cname g e h hg
    rw [List.foldlM_cons] at h
    cases hstep : addDepEdge cname g d with
    | error e' =>
      rw [hstep, except_bind_error] at h
      cases h
      obtain ⟨he, hac⟩ := addDepEdge_error_inv cname d g e hstep
      exact ⟨d, g, List.mem_cons_self d rest, hg, he, hac,
        fun ed hed => Or.inl hed⟩
    | ok g2 =>
      rw [hstep, except_bind_ok] at h
      obtain ⟨hgood2, _, _, hprov2, _, _⟩ := addDepEdge_ok_spec cname d g g2 hg hstep
      obtain ⟨d', g1, hd', hg1, he', hac', hprov'⟩ := ih cname g2 e h hgood2
      refine ⟨d', g1, List.mem_cons_of_mem _ hd', hg1, he', hac', ?_⟩
      intro ed hed
      cases hprov' ed hed with
      | inl h1 =>
        cases hprov2 ed h1 with
        | inl h2 => exact Or.inl h2
        | inr h2 => exact Or.inr ⟨d, List.mem_cons_self d rest, h2⟩
      | inr h1 =>
        obtain ⟨d'', hd'', hed''⟩ := h1
        exact Or.inr ⟨d'', List.mem_cons_of_mem _ hd'', hed''⟩

theorem setNode_good (g : Graph) (n : String) (hg : GoodG g) : GoodG (g.setNode n) := by
  refine ⟨setNode_nodup g n hg.1, ?_, ?_⟩
  · intro e he
    rw [setNode_edges] at he
    obtain ⟨h1, h2⟩ := hg.2.1 e he
    rw [setNode_mem_nodes, setNode_mem_nodes]
    exact ⟨Or.inl h1, Or.inl h2⟩
  · rw [setNode_edges]
    exact hg.2.2

theorem mem_artifactEdges (arts : List Contract) (e : String × String) :
    e ∈ artifactEdges arts ↔ ∃ a ∈ arts, ∃ d ∈ getDependencies a, (a.name, d) = e := by
  simp [artifactEdges]

theorem build_go_ok :
    ∀ (arts : List Contract) (g g' : Graph),
      arts.foldlM addArtifact g = .ok g' → GoodG g →
      GoodG g' ∧
      (∀ x ∈ g.nodes, x ∈ g'.nodes) ∧
      (∀ e ∈ g.edges, e ∈ g'.edges) ∧
      (∀ e ∈ g'.edges, e ∈ g.edges ∨ e ∈ artifactEdges arts) ∧
      (∀ a ∈ arts, a.name ∈ g'.nodes ∧
        ∀ d ∈ getDependencies a, (a.name, d) ∈ g'.edges ∧ d ∈ g'.nodes) ∧
      (∀ x ∈ g'.nodes, x ∈ g.nodes ∨
        ∃ a ∈ arts, x = a.name ∨ x ∈ getDependencies a) := by
  intro arts
  induction arts with
  | nil =>
    intro g g' h hg
    rw [List.foldlM_nil] at h
    cases h
    exact ⟨hg, fun x hx => hx, fun e he => he, fun e he => Or.inl he,
      (by intro a ha; cases ha), fun x hx => Or.inl hx⟩
  | cons a rest ih =>
    intro g g' h hg
    rw [List.foldlM_cons] at h
    cases hstep : addArtifact g a with
    | error e => rw [hstep, except_bind_error] at h; cases h
    | ok g2 =>
      rw [hstep, except_bind_ok] at h
      rw [addArtifact] at hstep
      have hgood0 : GoodG (g.setNode a.name) := setNode_good g a.name hg
      obtain ⟨hgood2, hn2, he2, hprov2, hdeps2, hnprov2⟩ :=
        deps_fold_ok_inv (getDependencies a) a.name _ g2 hstep hgood0
      obtain ⟨A, B, C, D, E, F⟩ := ih g2 g' h hgood2
      have hn02 : ∀ x ∈ g.nodes, x ∈ g2.nodes := by
        intro x hx
        exact hn2 x ((setNode_mem_nodes g a.name x).2 (Or.inl hx))
      have he02 : ∀ e ∈ g.edges, e ∈ g2.edges := by
        intro e he
        refine he2 e ?_
        rw [setNode_edges]
        exact he
      refine ⟨A, fun x hx => B x (hn02 x hx), fun e he => C e (he02 e he), ?_, ?_, ?_⟩
      · intro e he
        cases D e he with
        | inl h1 =>
          cases hprov2 e h1 with
          | inl h2 =>
            rw [setNode_edges] at h2
            exact Or.inl h2
          | inr h2 =>
            obtain ⟨d, hd, he'⟩ := h2
            refine Or.inr ((mem_artifactEdges _ _).2 ⟨a, List.mem_cons_self a rest, d, hd, he'.symm⟩)
        | inr h1 =>
          obtain ⟨a', ha', d, hd, he'⟩ := (mem_artifactEdges _ _).1 h1
          exact Or.inr ((mem_artifactEdges _ _).2
            ⟨a', List.mem_cons_of_mem _ ha', d, hd, he'⟩)
      · intro a' ha'
        cases List.mem_cons.1 ha' with
        | inl h1 =>
          subst h1
          refine ⟨B _ (hn2 _ ((setNode_mem_nodes g a'.name a'.name).2 (Or.inr rfl))), ?_⟩
          intro d hd
          obtain ⟨hde, hdn⟩ := hdeps2 d hd
          exact ⟨C _ hde, B _ hdn⟩
        | inr h1 => exact E a' h1
      · intro x hx
        cases F x hx with
        | inl h1 =>
          cases hnprov2 x h1 with
          | inl h2 =>
            cases (setNode_mem_nodes g a.name x).1 h2 with
            | inl h3 => exact Or.inl h3
            | inr h3 => exact Or.inr ⟨a, List.mem_cons_self a rest, Or.inl h3⟩
          | inr h2 =>
            cases h2 with
            | inl h3 => exact Or.inr ⟨a, List.mem_cons_self a rest, Or.inl h3⟩
            | inr h3 => exact Or.inr ⟨a, List.mem_cons_self a rest, Or.inr h3⟩
        | inr h1 =>
          obtain ⟨a', ha', h2⟩ := h1
          exact Or.inr ⟨a', List.mem_cons_of_mem _ ha', h2⟩

theorem build_go_error :
    ∀ (arts : List Contract) (g : Graph) (e : JsErr),
      arts.foldlM addArtifact g = .error e → GoodG g →
      ∃ u v g1, GoodG g1 ∧
        e = .userError (cycleMsg u v) ∧
        ((g1.setNode v).setEdge u v).isAcyclic = false ∧
        (u, v) ∈ artifactEdges arts ∧
        (∀ ed ∈ g1.edges, ed ∈ g.edges ∨ ed ∈ artifactEdges arts) := by
  intro arts
  induction arts with
  | nil =>
    intro g e h _
    rw [List.foldlM_nil] at h
    cases h
  | cons a rest ih =>
    intro g e h hg
    rw [List.foldlM_cons] at h
    cases hstep : addArtifact g a with
    | error e' =>
      rw [hstep, except_bind_error] at h
      cases h
      rw [addArtifact] at hstep
      have hgood0 : GoodG (g.setNode a.name) := setNode_good g a.name hg
      obtain ⟨d, g1, hd, hg1, he, hac, hprov⟩ :=
        deps_fold_error_inv (getDependencies a) a.name _ e hstep hgood0
      refine ⟨a.name, d, g1, hg1, he, hac, ?_, ?_⟩
      · exact (mem_artifactEdges _ _).2 ⟨a, List.mem_cons_self a rest, d, hd, rfl⟩
      · intro ed hed
        cases hprov ed hed with
        | inl h1 =>
          rw [setNode_edges] at h1
          exact Or.inl h1
        | inr h1 =>
          obtain ⟨d', hd', hed'⟩ := h1
          exact Or.inr ((mem_artifactEdges _ _).2
            ⟨a, List.mem_cons_self a rest, d', hd', hed'.symm⟩)
    | ok g2 =>
      rw [hstep, except_bind_ok] at h
      rw [addArtifact] at hstep
      have hgood0 : GoodG (g.setNode a.name) := setNode_good g a.name hg
      obtain ⟨hgood2, _, he2, hprov2, _, _⟩ :=
        deps_fold_ok_inv (getDependencies a) a.name _ g2 hstep hgood0
      obtain ⟨u, v, g1, hg1, he, hac, hmem, hprov⟩ := ih g2 e h hgood2
      refine ⟨u, v, g1, hg1, he, hac,
        (mem_artifactEdges _ _).2 (by
          obtain ⟨a', ha', d, hd, hed⟩ := (mem_artifactEdges _ _).1 hmem
          exact ⟨a', List.mem_cons_of_mem _ ha', d, hd, hed⟩), ?_⟩
      intro ed hed
      cases hprov ed hed with
      | inl h1 =>
        cases hprov2 ed h1 with
        | inl h2 =>
          rw [setNode_edges] at h2
          exact Or.inl h2
        | inr h2 =>
          obtain ⟨d', hd', hed'⟩ := h2
          exact Or.inr ((mem_artifactEdges _ _).2
            ⟨a, List.mem_cons_self a rest, d', hd', hed'.symm⟩)
      | inr h1 =>
        obtain ⟨a', ha', d, hd, hed⟩ := (mem_artifactEdges _ _).1 h1
        exact Or.inr ((mem_artifactEdges _ _).2
          ⟨a', List.mem_cons_of_mem _ ha', d, hd, hed⟩)

theorem goodG_empty : GoodG { nodes := [], edges := [] } := by
  refine ⟨List.nodup_nil, ?_, ?_⟩
  · intro e he; cases he
  · intro x h
    obtain ⟨l, _, hch, hl⟩ := (transGen_iff_chain _ x x).1 h
    cases l with
    | nil => cases hl
    | cons y l' =>
      cases hch with
      | cons hxy _ => cases hxy

theorem transGen_union_decompose {α : Type} (r r' : α → α → Prop) (u v : α)
    (hr' : ∀ a b, r' a b → r a b ∨ (a = u ∧ b = v))
    (hrr : ∀ a b, r a b → r' a b) :
    ∀ {x y : α}, Relation.TransGen r' x y →
      Relation.TransGen r x y ∨
        (Relation.ReflTransGen r' x u ∧ Relation.ReflTransGen r' v y) := by
  intro x y h
  induction h with
  | single hstep =>
    cases hr' _ _ hstep with
    | inl h1 => exact Or.inl (Relation.TransGen.single h1)
    | inr h1 =>
      exact Or.inr ⟨h1.1 ▸ Relation.ReflTransGen.refl, h1.2 ▸ Relation.ReflTransGen.refl⟩
  | tail hxb hstep ihres =>
    rename_i b c
    cases ihres with
    | inl h1 =>
      cases hr' _ _ hstep with
      | inl h2 => exact Or.inl (Relation.TransGen.tail h1 h2)
      | inr h2 =>
        refine Or.inr ⟨?_, h2.2 ▸ Relation.ReflTransGen.refl⟩
        have : Relation.TransGen r' x b := h1.mono hrr
        exact h2.1 ▸ this.to_reflTransGen
    | inr h1 =>
      cases hr' _ _ hstep with
      | inl h2 => exact Or.inr ⟨h1.1, Relation.ReflTransGen.tail h1.2 (hrr _ _ h2)⟩
      | inr h2 => exact Or.inr ⟨h1.1, Relation.ReflTransGen.tail h1.2 hstep⟩

theorem cyclic_extension_reaches_back (es : List (String × String)) (u v : String)
    (hac : Acyclic es) (hcyc : ¬ Acyclic (es ++ [(u, v)])) :
    Relation.ReflTransGen (edgeRel (es ++ [(u, v)])) v u := by
  rw [Acyclic] at hcyc
  push_neg at hcyc
  obtain ⟨x, hx⟩ := hcyc
  have hr' : ∀ a b, edgeRel (es ++ [(u, v)]) a b → edgeRel es a b ∨ (a = u ∧ b = v) := by
    intro a b hab
    rw [edgeRel, List.mem_append] at hab
    cases hab with
    | inl h1 => exact Or.inl h1
    | inr h1 =>
      rw [List.mem_singleton, Prod.mk.injEq] at h1
      exact Or.inr h1
  have hrr : ∀ a b, edgeRel es a b → edgeRel (es ++ [(u, v)]) a b := by
    intro a b hab
    rw [edgeRel, List.mem_append]
    exact Or.inl hab
  cases transGen_union_decompose (edgeRel es) (edgeRel (es ++ [(u, v)])) u v hr' hrr hx with
  | inl h1 => exact absurd h1 (hac x)
  | inr h1 => exact h1.2.trans h1.1

theorem setEdge_edges_new (g : Graph) (u v : String) (h : (u, v) ∉ g.edges) :
    (g.setEdge u v).edges = g.edges ++ [(u, v)] := by
  rw [Graph.setEdge]
  split
  · rename_i h1
    rw [setNode_edges, setNode_edges] at h1
    exact absurd h1 h
  · show ((g.setNode u).setNode v).edges ++ [(u, v)] = _
    rw [setNode_edges, setNode_edges]

theorem setEdge_edges_old (g : Graph) (u v : String) (h : (u, v) ∈ g.edges) :
    (g.setEdge u v).edges = g.edges := by
  rw [Graph.setEdge]
  split
  · rw [setNode_edges, setNode_edges]
  · rename_i h1
    rw [setNode_edges, setNode_edges] at h1
    exact absurd h h1

theorem setEdge_setNode_wf (g : Graph) (cname d : String) (hg : GoodG g) :
    WFGraph ((g.setNode d).setEdge cname d) := by
  refine setEdge_wf _ cname d ?_
  intro e he
  rw [setNode_edges] at he
  obtain ⟨h1, h2⟩ := hg.2.1 e he
  rw [setNode_mem_nodes, setNode_mem_nodes]
  exact ⟨Or.inl h1, Or.inl h2⟩

/-! ## The depth-first post-order traversal -/

theorem mem_succOf (es : List (String × String)) (v w : String) :
    w ∈ succOf es v ↔ (v, w) ∈ es := by
  simp only [succOf, List.mem_map, List.mem_filter, beq_iff_eq]
  constructor
  · rintro ⟨e, ⟨he, h1⟩, h2⟩
    obtain ⟨e1, e2⟩ := e
    cases h1
    cases h2
    exact he
  · intro h
    exact ⟨(v, w), ⟨h, rfl⟩, rfl⟩

theorem succOf_length_le (es : List (String × String)) (v : String) :
    (succOf es v).length ≤ es.length := by
  rw [succOf, List.length_map]
  exact List.length_filter_le _ es

theorem unvisitedCount_nil (univ : List String) :
    unvisitedCount univ [] = univ.length := by
  rw [unvisitedCount]
  induction univ with
  | nil => rfl
  | cons a u ih => simp [ih]

theorem unvisitedCount_le_of_subset (univ vis vis' : List String)
    (h : ∀ x ∈ vis, x ∈ vis') :
    unvisitedCount univ vis' ≤ unvisitedCount univ vis := by
  rw [unvisitedCount, unvisitedCount]
  induction univ with
  | nil => exact le_rfl
  | cons a u ih =>
    rw [List.filter_cons, List.filter_cons]
    by_cases ha' : a ∈ vis'
    · rw [if_neg (by simpa using ha')]
      by_cases ha : a ∈ vis
      · rw [if_neg (by simpa using ha)]
        exact ih
      · rw [if_pos (by simpa using ha)]
        rw [List.length_cons]
        exact le_trans ih (Nat.le_succ _)
    · have ha : a ∉ vis := fun hx => ha' (h a hx)
      rw [if_pos (by simpa using ha'), if_pos (by simpa using ha)]
      rw [List.length_cons, List.length_cons]
      exact Nat.succ_le_succ ih

theorem unvisitedCount_cons_succ_le (univ vis : List String) (v : String)
    (hu : v ∈ univ) (hv : v ∉ vis) :
    unvisitedCount univ (v :: vis) + 1 ≤ unvisitedCount univ vis := by
  rw [unvisitedCount, unvisitedCount]
  induction univ with
  | nil => cases hu
  | cons a u ih =>
    rw [List.filter_cons, List.filter_cons]
    by_cases hav : a = v
    · subst hav
      rw [if_neg (by simp), if_pos (by simpa using hv)]
      rw [List.length_cons]
      have hmono : (u.filter (fun x => decide (x ∉ a :: vis))).length ≤
          (u.filter (fun x => decide (x ∉ vis))).length := by
        have := unvisitedCount_le_of_subset u vis (a :: vis)
          (fun x hx => List.mem_cons_of_mem _ hx)
        rw [unvisitedCount, unvisitedCount] at this
        exact this
      omega
    · have hvu : v ∈ u := by
        cases List.mem_cons.1 hu with
        | inl h1 => exact absurd h1.symm hav
        | inr h1 => exact h1
      by_cases ha : a ∈ vis
      · rw [if_neg (by simp [ha]), if_neg (by simpa using ha)]
        exact ih hvu
      · have hacons : a ∉ v :: vis := by
          intro hx
          cases List.mem_cons.1 hx with
          | inl h1 => exact hav h1
          | inr h1 => exact ha h1
        rw [if_pos (by simpa using hacons), if_pos (by simpa using ha)]
        rw [List.length_cons, List.length_cons]
        have := ih hvu
        omega

theorem postOrd_gray_mono (es : List (String × String)) (acc gray : List String)
    (v : String) (h : PostOrd es acc gray) : PostOrd es acc (v :: gray) := by
  intro u hu w hw
  cases h u hu w hw with
  | inl h1 => exact Or.inl (List.mem_cons_of_mem _ h1)
  | inr h1 => exact Or.inr h1

/-- Master invariant of the fuelled depth-first post-order traversal,
relative to a ghost `gray` stack (the nodes currently being explored).
On an acyclic, successor-closed edge list, with a fuel budget of
`|worklist| + unvisited·(1 + |edges|)`, the traversal: grows the visited
set monotonically within `univ`, keeps `visited = emitted ∪ gray`, extends
the emitted list without duplicates and without gray nodes, visits its
whole worklist, emits only nodes reachable from the worklist, and
preserves the post-order property (every emitted node's successors are
gray or emitted earlier). -/
theorem dfsPost_master (es : List (String × String)) (univ : List String)
    (hcl : ∀ e ∈ es, e.2 ∈ univ) (hacyc : Acyclic es) :
    ∀ (fuel : Nat) (ws vis acc gray : List String),
      ws.length + unvisitedCount univ vis * (1 + es.length) ≤ fuel →
      (∀ x ∈ ws, x ∈ univ) →
      (∀ x, x ∈ vis ↔ x ∈ acc ∨ x ∈ gray) →
      acc.Nodup →
      (∀ x ∈ gray, x ∉ acc) →
      PostOrd es acc gray →
      (∀ x ∈ vis, x ∈ (dfsPost (succOf es) fuel ws vis acc).1) ∧
      (∀ x ∈ (dfsPost (succOf es) fuel ws vis acc).1, x ∈ vis ∨ x ∈ univ) ∧
      (∀ x, x ∈ (dfsPost (succOf es) fuel ws vis acc).1 ↔
        x ∈ (dfsPost (succOf es) fuel ws vis acc).2 ∨ x ∈ gray) ∧
      (∃ t, (dfsPost (succOf es) fuel ws vis acc).2 = acc ++ t) ∧
      (dfsPost (succOf es) fuel ws vis acc).2.Nodup ∧
      (∀ x ∈ gray, x ∉ (dfsPost (succOf es) fuel ws vis acc).2) ∧
      (∀ x ∈ ws, x ∈ (dfsPost (succOf es) fuel ws vis acc).1) ∧
      (∀ x ∈ (dfsPost (succOf es) fuel ws vis acc).2, x ∈ acc ∨
        ∃ w ∈ ws, Relation.ReflTransGen (edgeRel es) w x) ∧
      PostOrd es (dfsPost (succOf es) fuel ws vis acc).2 gray := by
  intro fuel
  induction fuel with
  | zero =>
    intro ws vis acc gray hfuel hws hvis hnd hdisj hpo
    cases ws with
    | nil =>
      exact ⟨fun x hx => hx, fun x hx => Or.inl hx, hvis,
        ⟨[], (List.append_nil acc).symm⟩, hnd, hdisj,
        (by intro x hx; cases hx), fun x hx => Or.inl hx, hpo⟩
    | cons v vs =>
      exfalso
      rw [List.length_cons] at hfuel
      omega
  | succ f ihf =>
    intro ws vis acc gray hfuel hws hvis hnd hdisj hpo
    cases ws with
    | nil =>
      exact ⟨fun x hx => hx, fun x hx => Or.inl hx, hvis,
        ⟨[], (List.append_nil acc).symm⟩, hnd, hdisj,
        (by intro x hx; cases hx), fun x hx => Or.inl hx, hpo⟩
    | cons v vs =>
      by_cases hv : v ∈ vis
      · have hred : dfsPost (succOf es) (f + 1) (v :: vs) vis acc =
            dfsPost (succOf es) f vs vis acc := by
          rw [dfsPost, if_pos hv]
        rw [hred]
        have hfuel' : vs.length + unvisitedCount univ vis * (1 + es.length) ≤ f := by
          rw [List.length_cons] at hfuel
          omega
        obtain ⟨A1, A2, A3, A4, A5, A6, A7, A8, A9⟩ :=
          ihf vs vis acc gray hfuel' (fun x hx => hws x (List.mem_cons_of_mem _ hx))
            hvis hnd hdisj hpo
        refine ⟨A1, A2, A3, A4, A5, A6, ?_, ?_, A9⟩
        · intro x hx
          cases List.mem_cons.1 hx with
          | inl h1 => exact A1 x (h1 ▸ hv)
          | inr h1 => exact A7 x h1
        · intro x hx
          cases A8 x hx with
          | inl h1 => exact Or.inl h1
          | inr h1 =>
            obtain ⟨w, hw, hrtg⟩ := h1
            exact Or.inr ⟨w, List.mem_cons_of_mem _ hw, hrtg⟩
      · have hred : dfsPost (succOf es) (f + 1) (v :: vs) vis acc =
            dfsPost (succOf es) f vs
              (dfsPost (succOf es) f (succOf es v) (v :: vis) acc).1
              ((dfsPost (succOf es) f (succOf es v) (v :: vis) acc).2 ++ [v]) := by
          rw [dfsPost, if_neg hv]
        rw [hred]
        have hvuniv : v ∈ univ := hws v (List.mem_cons_self v vs)
        have hsubvis : ∀ x ∈ acc, x ∈ vis := fun x hx => (hvis x).2 (Or.inl hx)
        have hgrayvis : ∀ x ∈ gray, x ∈ vis := fun x hx => (hvis x).2 (Or.inr hx)
        have hvacc : v ∉ acc := fun hx => hv (hsubvis v hx)
        have hvgray : v ∉ gray := fun hx => hv (hgrayvis v hx)
        have hUle : unvisitedCount univ (v :: vis) + 1 ≤ unvisitedCount univ vis :=
          unvisitedCount_cons_succ_le univ vis v hvuniv hv
        have hfuelN : (succOf es v).length +
            unvisitedCount univ (v :: vis) * (1 + es.length) ≤ f := by
          have hmul : (unvisitedCount univ (v :: vis) + 1) * (1 + es.length) ≤
              unvisitedCount univ vis * (1 + es.length) :=
            Nat.mul_le_mul_right _ hUle
          rw [Nat.add_mul, Nat.one_mul] at hmul
          have hsl := succOf_length_le es v
          rw [List.length_cons] at hfuel
          omega
        obtain ⟨N1, N2, N3, N4, N5, N6, N7, N8, N9⟩ :=
          ihf (succOf es v) (v :: vis) acc (v :: gray) hfuelN
            (fun w hw => hcl (v, w) ((mem_succOf es v w).1 hw))
            (by
              intro x
              rw [List.mem_cons, hvis x, List.mem_cons]
              tauto)
            hnd
            (by
              intro x hx
              cases List.mem_cons.1 hx with
              | inl h1 => exact h1 ▸ hvacc
              | inr h1 => exact hdisj x h1)
            (postOrd_gray_mono es acc gray v hpo)
        have hvp1 : v ∈ (dfsPost (succOf es) f (succOf es v) (v :: vis) acc).1 :=
          N1 v (List.mem_cons_self v vis)
        have hvp2 : v ∉ (dfsPost (succOf es) f (succOf es v) (v :: vis) acc).2 :=
          N6 v (List.mem_cons_self v gray)
        obtain ⟨t1, ht1⟩ := N4
        have hfuelC : vs.length +
            unvisitedCount univ (dfsPost (succOf es) f (succOf es v) (v :: vis) acc).1 *
              (1 + es.length) ≤ f := by
          have hU1 : unvisitedCount univ
              (dfsPost (succOf es) f (succOf es v) (v :: vis) acc).1 ≤
              unvisitedCount univ (v :: vis) :=
            unvisitedCount_le_of_subset univ (v :: vis) _ N1
          have hm1 : unvisitedCount univ
              (dfsPost (succOf es) f (succOf es v) (v :: vis) acc).1 * (1 + es.length) ≤
              unvisitedCount univ (v :: vis) * (1 + es.length) :=
            Nat.mul_le_mul_right _ hU1
          have hm2 : (unvisitedCount univ (v :: vis) + 1) * (1 + es.length) ≤
              unvisitedCount univ vis * (1 + es.length) :=
            Nat.mul_le_mul_right _ hUle
          rw [Nat.add_mul, Nat.one_mul] at hm2
          rw [List.length_cons] at hfuel
          omega
        have hvisC : ∀ x, x ∈ (dfsPost (succOf es) f (succOf es v) (v :: vis) acc).1 ↔
            x ∈ (dfsPost (succOf es) f (succOf es v) (v :: vis) acc).2 ++ [v] ∨
              x ∈ gray := by
          intro x
          rw [N3 x, List.mem_cons, List.mem_append, List.mem_singleton]
          tauto
        have hndC : ((dfsPost (succOf es) f (succOf es v) (v :: vis) acc).2 ++ [v]).Nodup := by
          refine List.nodup_append.2 ⟨N5, List.nodup_singleton v, ?_⟩
          intro x hx hx1
          rw [List.mem_singleton] at hx1
          exact hvp2 (hx1 ▸ hx)
        have hdisjC : ∀ x ∈ gray,
            x ∉ (dfsPost (succOf es) f (succOf es v) (v :: vis) acc).2 ++ [v] := by
          intro x hx hmem
          rw [List.mem_append, List.mem_singleton] at hmem
          cases hmem with
          | inl h1 => exact N6 x (List.mem_cons_of_mem _ hx) h1
          | inr h1 => exact hvgray (h1 ▸ hx)
        have hpoC : PostOrd es
            ((dfsPost (succOf es) f (succOf es v) (v :: vis) acc).2 ++ [v]) gray := by
          intro u hu w hw
          rw [List.mem_append, List.mem_singleton] at hu
          cases hu with
          | inl hu1 =>
            cases N9 u hu1 w hw with
            | inl h1 =>
              cases List.mem_cons.1 h1 with
              | inl h2 =>
                exfalso
                subst h2
                cases N8 u hu1 with
                | inl h3 =>
                  cases hpo u h3 w hw with
                  | inl h4 => exact hvgray h4
                  | inr h4 => exact hvacc h4.1
                | inr h3 =>
                  obtain ⟨w', hw', hrtg⟩ := h3
                  have hedge : edgeRel es w w' := (mem_succOf es w w').1 hw'
                  have hrtg2 : Relation.ReflTransGen (edgeRel es) w u :=
                    Relation.ReflTransGen.head hedge hrtg
                  exact hacyc w (Relation.TransGen.tail' hrtg2 hw)
              | inr h2 => exact Or.inl h2
            | inr h1 =>
              refine Or.inr ⟨List.mem_append_left _ h1.1, ?_⟩
              rw [List.indexOf_append_of_mem h1.1, List.indexOf_append_of_mem hu1]
              exact h1.2
          | inr hu1 =>
            subst hu1
            have hwsucc : w ∈ succOf es u := (mem_succOf es u w).2 hw
            have hwvis1 : w ∈ (dfsPost (succOf es) f (succOf es u) (u :: vis) acc).1 :=
              N7 w hwsucc
            cases (N3 w).1 hwvis1 with
            | inl h1 =>
              refine Or.inr ⟨List.mem_append_left _ h1, ?_⟩
              rw [List.indexOf_append_of_mem h1,
                List.indexOf_append_of_not_mem hvp2, List.indexOf_cons_self]
              have := List.indexOf_lt_length.2 h1
              omega
            | inr h1 =>
              cases List.mem_cons.1 h1 with
              | inl h2 =>
                exfalso
                exact hacyc u (Relation.TransGen.single (show edgeRel es u u from h2 ▸ hw))
              | inr h2 => exact Or.inl h2
        obtain ⟨C1, C2, C3, C4, C5, C6, C7, C8, C9⟩ :=
          ihf vs (dfsPost (succOf es) f (succOf es v) (v :: vis) acc).1
            ((dfsPost (succOf es) f (succOf es v) (v :: vis) acc).2 ++ [v]) gray hfuelC
            (fun x hx => hws x (List.mem_cons_of_mem _ hx))
            hvisC hndC hdisjC hpoC
        refine ⟨?_, ?_, C3, ?_, C5, C6, ?_, ?_, C9⟩
        · intro x hx
          exact C1 x (N1 x (List.mem_cons_of_mem _ hx))
        · intro x hx
          cases C2 x hx with
          | inl h1 =>
            cases N2 x h1 with
            | inl h2 =>
              cases List.mem_cons.1 h2 with
              | inl h3 => exact Or.inr (h3 ▸ hvuniv)
              | inr h3 => exact Or.inl h3
            | inr h2 => exact Or.inr h2
          | inr h1 => exact Or.inr h1
        · obtain ⟨t2, ht2⟩ := C4
          refine ⟨t1 ++ [v] ++ t2, ?_⟩
          rw [ht2, ht1]
          simp
        · intro x hx
          cases List.mem_cons.1 hx with
          | inl h1 => exact C1 x (h1 ▸ hvp1)
          | inr h1 => exact C7 x h1
        · intro x hx
          cases C8 x hx with
          | inl h1 =>
            rw [List.mem_append, List.mem_singleton] at h1
            cases h1 with
            | inl h2 =>
              cases N8 x h2 with
              | inl h3 => exact Or.inl h3
              | inr h3 =>
                obtain ⟨w', hw', hrtg⟩ := h3
                exact Or.inr ⟨v, List.mem_cons_self v vs,
                  Relation.ReflTransGen.head ((mem_succOf es v w').1 hw') hrtg⟩
            | inr h2 =>
              refine Or.inr ⟨v, List.mem_cons_self v vs, ?_⟩
              subst h2
              exact Relation.ReflTransGen.refl
          | inr h1 =>
            obtain ⟨w', hw', hrtg⟩ := h1
            exact Or.inr ⟨w', List.mem_cons_of_mem _ hw', hrtg⟩

/-- The post-order traversal of a good graph enumerates exactly the nodes,
without duplicates, and places every edge's target strictly before its
source. -/
theorem postorderG_spec (g : Graph) (hg : GoodG g) :
    (∀ x, x ∈ postorderG g ↔ x ∈ g.nodes) ∧
    (postorderG g).Nodup ∧
    (∀ e ∈ g.edges, (postorderG g).indexOf e.2 < (postorderG g).indexOf e.1) := by
  have hcl : ∀ e ∈ g.edges, e.2 ∈ g.nodes := fun e he => (hg.2.1 e he).2
  obtain ⟨M1, M2, M3, M4, M5, M6, M7, M8, M9⟩ :=
    dfsPost_master g.edges g.nodes hcl hg.2.2 (dfsFuel g) g.nodes [] [] []
      (by rw [unvisitedCount_nil, dfsFuel])
      (fun x hx => hx)
      (by intro x; simp)
      List.nodup_nil
      (by intro x hx; cases hx)
      (by intro u hu w _; cases hu)
  have hiff : ∀ x, x ∈ postorderG g ↔ x ∈ g.nodes := by
    intro x
    rw [postorderG]
    constructor
    · intro hx
      have hx1 := (M3 x).2 (Or.inl hx)
      cases M2 x hx1 with
      | inl h1 => cases h1
      | inr h1 => exact h1
    · intro hx
      have hx1 := M7 x hx
      cases (M3 x).1 hx1 with
      | inl h1 => exact h1
      | inr h1 => cases h1
  refine ⟨hiff, by rw [postorderG]; exact M5, ?_⟩
  intro e he
  have hu : e.1 ∈ postorderG g := (hiff e.1).2 (hg.2.1 e he).1
  rw [postorderG] at hu ⊢
  cases M9 e.1 hu e.2 (by rw [Prod.mk.eta]; exact he) with
  | inl h1 => cases h1
  | inr h1 => exact h1.2

/-! ## Claim theorems -/

/-- C10: the bytecode placeholder pattern accepts an empty name, so
`getDependenciesFromBytecode` applied to a bytecode consisting only of
underscores returns the single dependency name `""` rather than rejecting
the input or returning no dependencies. -/
theorem c10_empty_placeholder_name : getDependenciesFromBytecode "____" = [""] := by decide

/-- C4 counterexample: for the artifact `c4art`, whose bytecode placeholder
and first-constructor injection both name `Lib`, `getDependencies` returns
`["Lib", "Lib"]` — the name occurring in both sources appears twice, not
exactly once as the claim states. -/
theorem c4_counterexample :
    getDependenciesFromBytecode c4art.bytecode = ["Lib"] ∧
    getDependenciesFromConstructor c4art.abi = ["Lib"] ∧
    getDependencies c4art = ["Lib", "Lib"] ∧
    (getDependencies c4art).count "Lib" ≠ 1 := by decide

/-- C4 (amended): `getDependencies` returns the bytecode-derived names
followed by the constructor-derived names, each source deduplicated
internally (first occurrence kept); a name appearing in both sources occurs
exactly twice in the result, once per source, rather than collapsing to
one. -/
theorem c4_union_is_concat (c : Contract) :
    getDependencies c =
      getDependenciesFromBytecode c.bytecode ++ getDependenciesFromConstructor c.abi ∧
    (getDependenciesFromBytecode c.bytecode).Nodup ∧
    (getDependenciesFromConstructor c.abi).Nodup ∧
    ∀ n, n ∈ getDependenciesFromBytecode c.bytecode →
      n ∈ getDependenciesFromConstructor c.abi → (getDependencies c).count n = 2 := by
  refine ⟨rfl, getDependenciesFromBytecode_nodup _, getDependenciesFromConstructor_nodup _, ?_⟩
  intro n h1 h2
  rw [getDependencies, List.count_append,
    List.count_eq_one_of_mem (getDependenciesFromBytecode_nodup _) h1,
    List.count_eq_one_of_mem (getDependenciesFromConstructor_nodup _) h2]

/-- Witness for `c4_union_is_concat` at the concrete artifact `c4art`. -/
theorem c4_union_is_concat_witness :
    getDependencies c4art =
      getDependenciesFromBytecode c4art.bytecode ++ getDependenciesFromConstructor c4art.abi ∧
    (getDependencies c4art).count "Lib" = 2 :=
  ⟨(c4_union_is_concat c4art).1,
    (c4_union_is_concat c4art).2.2.2 "Lib" (by decide) (by decide)⟩

/-- C2: the code violates the claimed ordering guarantee.  With artifacts
`A` (bytecode placeholder `__B__`) and `B` and no configured addresses, the
planned order is `[B, A]`, but `Promise.all(compiledContracts.map(deploy))`
runs every `deploy` body synchronously: `B`'s deploy call is merely
initiated (in flight, no address recorded anywhere), and `A`'s link step
begins immediately afterwards and throws a `TypeError` because `B`'s
address is still undefined.  The claim says `A`'s link step never begins
until `B` has a recorded address. -/
theorem c2_link_begins_without_dependency_address :
    buildDependencyGraph [c2artA, c2artB] = .ok c2graph ∧
    postorderG c2graph = ["B", "A"] ∧
    runLoader c2config [c2artA, c2artB] =
      ([Event.deployCall "B" "6001" []], some (JsErr.typeError replaceUndefinedMsg)) := by
  decide

/-- C5 counterexample: linking does not require a non-empty address.  For
the artifact with bytecode `__Lib__` and a contract map recording the empty
address for `Lib`, `linkBytecode` succeeds (substituting the empty string)
instead of failing as the claim requires. -/
theorem c5_counterexample :
    getDependenciesFromBytecode c5art.bytecode = ["Lib"] ∧
    lookupStr c5map "Lib" =
      some { name := "Lib", abi := [], bytecode := "", address := some "" } ∧
    linkBytecode c5art c5map = .ok { c5art with bytecode := "" } := by decide

/-- C5 (amended): linking requires every bytecode-extracted dependency to
be present in the contract map with a defined (possibly empty) address.  If
every dependency is so resolvable, linking succeeds; if the first
unresolvable dependency is absent from the map, linking fails with the
`TypeError` of reading `.address` of `undefined`; if it is present but its
address is undefined, linking fails with the `TypeError` of calling
`.replace` on `undefined`.  Both messages are fixed strings that do not
name the dependency. -/
theorem c5_link_requires_defined_address (c : Contract) (m : List (String × Contract)) :
    ((∀ d ∈ getDependenciesFromBytecode c.bytecode,
        ∃ dc a, lookupStr m d = some dc ∧ dc.address = some a) →
      ∃ c', linkBytecode c m = Except.ok c') ∧
    (∀ l1 d l2, getDependenciesFromBytecode c.bytecode = l1 ++ d :: l2 →
      (∀ d' ∈ l1, ∃ dc a, lookupStr m d' = some dc ∧ dc.address = some a) →
      lookupStr m d = none →
      linkBytecode c m = Except.error (JsErr.typeError cannotReadAddressMsg)) ∧
    (∀ l1 d l2 dc, getDependenciesFromBytecode c.bytecode = l1 ++ d :: l2 →
      (∀ d' ∈ l1, ∃ dc' a, lookupStr m d' = some dc' ∧ dc'.address = some a) →
      lookupStr m d = some dc → dc.address = none →
      linkBytecode c m = Except.error (JsErr.typeError replaceUndefinedMsg)) := by
  refine ⟨fun hall => link_fold_ok _ m c hall, ?_, ?_⟩
  · intro l1 d l2 hsplit hpre habs
    rw [linkBytecode, hsplit]
    refine fold_error_of_prefix_ok (linkStep m) _ l1 d l2 c ?_ ?_
    · intro b a ha
      obtain ⟨dc, ad, hdc, had⟩ := hpre a ha
      refine ⟨{ b with bytecode := linkDependency b.bytecode a ad }, ?_⟩
      unfold linkStep; rw [hdc]; dsimp only; rw [had]
    · intro b; unfold linkStep; rw [habs]
  · intro l1 d l2 dc hsplit hpre hdc hnone
    rw [linkBytecode, hsplit]
    refine fold_error_of_prefix_ok (linkStep m) _ l1 d l2 c ?_ ?_
    · intro b a ha
      obtain ⟨dc', ad, hdc', had⟩ := hpre a ha
      refine ⟨{ b with bytecode := linkDependency b.bytecode a ad }, ?_⟩
      unfold linkStep; rw [hdc']; dsimp only; rw [had]
    · intro b; unfold linkStep; rw [hdc]; dsimp only; rw [hnone]

/-- Witness for `c5_link_requires_defined_address`: the success branch at
`c5art`/`c5map` and the missing-dependency branch at `c5art2` with an empty
map. -/
theorem c5_link_requires_defined_address_witness :
    (∃ c', linkBytecode c5art c5map = Except.ok c') ∧
    linkBytecode c5art2 [] = Except.error (JsErr.typeError cannotReadAddressMsg) :=
  ⟨(c5_link_requires_defined_address c5art c5map).1
      (by
        intro d hd
        have hd' : d = "Lib" := by
          have : getDependenciesFromBytecode c5art.bytecode = ["Lib"] := by decide
          rw [this] at hd
          simpa using hd
        exact hd' ▸ ⟨{ name := "Lib", abi := [], bytecode := "", address := some "" }, "",
          by decide, rfl⟩),
    (c5_link_requires_defined_address c5art2 []).2.1 [] "X" [] (by decide)
      (by intro d' hd'; cases hd') (by decide)⟩

/-- C6 counterexample: linking is not idempotent even when every
placeholder of the artifact is resolvable.  In `c6art` the placeholder
names are `A` and `AB`, both resolved by `c6map` with nonempty addresses,
but replacing `/__A_*/g` first consumes the `__A` prefix of `__AB__`,
leaving the fragment `B__y` in the linked bytecode; the leftover `__y` is a
new placeholder, so linking a second time does not return the same result
(it fails looking up `y`). -/
theorem c6_counterexample :
    getDependenciesFromBytecode c6art.bytecode = ["A", "AB"] ∧
    lookupStr c6map "A" =
      some { name := "A", abi := [], bytecode := "", address := some "0xaa" } ∧
    lookupStr c6map "AB" =
      some { name := "AB", abi := [], bytecode := "", address := some "0xbb" } ∧
    linkBytecode c6art c6map = .ok { c6art with bytecode := "aaxaaB__y" } ∧
    (linkBytecode c6art c6map).bind (fun c => linkBytecode c c6map) ≠
      linkBytecode c6art c6map := by decide

/-- C6 (amended): re-linking is a no-op only once the linked bytecode
contains no remaining placeholder markers: if `linkBytecode` produced `c'`
and `c'.bytecode` has no extractable dependencies, then linking `c'` again
with the same map returns `c'` unchanged. -/
theorem c6_relink_noop_without_markers (c c' : Contract) (m : List (String × Contract))
    (_h1 : linkBytecode c m = Except.ok c')
    (h2 : getDependenciesFromBytecode c'.bytecode = []) :
    linkBytecode c' m = Except.ok c' := by
  rw [linkBytecode, h2, List.foldlM_nil]
  rfl

/-- Witness for `c6_relink_noop_without_markers` at `c6art2`, whose single
placeholder `__A__` links to the marker-free bytecode `aa`. -/
theorem c6_relink_noop_without_markers_witness :
    linkBytecode c6linked c6map = Except.ok c6linked :=
  c6_relink_noop_without_markers c6art2 c6linked c6map (by decide) (by decide)

/-- C8: a contract whose name has a configured address in
`config.deployedContracts` takes the reuse branch of `deploy`: the outcome
is `reused` with exactly the configured address and untouched bytecode
(so linking is skipped and no deploy call is made), and no `deployCall`
event for that name ever appears in a deployment phase run under that
configuration. -/
theorem c8_configured_contract_reused (config : Config) (c : Contract)
    (cmap : List (String × Contract)) (addr : String)
    (h : lookupStr config.deployedContracts c.name = some addr) :
    deploy config c cmap = Except.ok (.reused { c with address := some addr }) ∧
    ({ c with address := some addr } : Contract).bytecode = c.bytecode ∧
    ({ c with address := some addr } : Contract).address = some addr ∧
    ∀ (contracts : List Contract) (cmap0 : List (String × Contract)) (b : String)
      (p : List String),
      Event.deployCall c.name b p ∉ (deployPhase config contracts cmap0 []).1 := by
  refine ⟨by rw [deploy, h], rfl, rfl, ?_⟩
  intro contracts cmap0 b p hmem
  exact deployPhase_no_call_aux config c.name addr h contracts cmap0 []
    (by intro ev hev; cases hev) (Event.deployCall c.name b p) hmem b p rfl

/-- Witness for `c8_configured_contract_reused` at the configured contract
`B`. -/
theorem c8_configured_contract_reused_witness :
    deploy c8config c8artB [] = Except.ok (.reused { c8artB with address := some "0xABC" }) :=
  (c8_configured_contract_reused c8config c8artB [] "0xABC" (by decide)).1

/-- C9: for a contract that is actually deployed (not reused) and whose
bytecode linking succeeds, the constructor argument list is exactly the
caller-configured parameters followed by the recorded addresses of the
constructor-injected dependencies in extraction order; and if the first
dependency without a usable address is present in the map but its address
is undefined or empty, `deploy` fails with the error naming that
dependency, before any deploy call is made (`deploy` returns no `deployed`
outcome). -/
theorem c9_constructor_args (config : Config) (c linked : Contract)
    (cmap : List (String × Contract))
    (hnr : lookupStr config.deployedContracts c.name = none)
    (hlink : linkBytecode c cmap = Except.ok linked) :
    ((∀ d ∈ getDependenciesFromConstructor c.abi,
        ∃ dc a, lookupStr cmap d = some dc ∧ dc.address = some a ∧ a ≠ "") →
      deploy config c cmap = Except.ok (.deployed linked
        ((lookupStr config.constructorParams c.name).getD [] ++
          (getDependenciesFromConstructor c.abi).map (recordedAddr cmap))
        config.fromAccount config.gasLimit)) ∧
    (∀ l1 d l2 dc, getDependenciesFromConstructor c.abi = l1 ++ d :: l2 →
      (∀ d' ∈ l1, ∃ dc' a, lookupStr cmap d' = some dc' ∧ dc'.address = some a ∧ a ≠ "") →
      lookupStr cmap d = some dc → (dc.address = none ∨ dc.address = some "") →
      deploy config c cmap = Except.error (JsErr.userError (unresolvedMsg d))) := by
  obtain ⟨hname, habi, _⟩ := linkBytecode_fields c linked cmap hlink
  constructor
  · intro hall
    have hres : resolveConstructorParams config linked cmap =
        .ok ((lookupStr config.constructorParams c.name).getD [] ++
          (getDependenciesFromConstructor c.abi).map (recordedAddr cmap)) := by
      rw [resolveConstructorParams, hname, habi]
      exact resolve_fold_ok _ cmap _ hall
    rw [deploy, hnr]
    dsimp only
    rw [hlink]
    dsimp only
    rw [hres]
  · intro l1 d l2 dc hsplit hpre hdc hbad
    have hres : resolveConstructorParams config linked cmap =
        .error (.userError (unresolvedMsg d)) := by
      rw [resolveConstructorParams, habi, hsplit]
      refine resolve_fold_error (resolveStep cmap) _ l1 d l2 _ ?_ ?_
      · intro b a ha
        obtain ⟨dc', ad, hdc', had, hne⟩ := hpre a ha
        refine ⟨b ++ [ad], ?_⟩
        rw [resolveStep, hdc']; dsimp only; rw [had]; dsimp only
        rw [if_pos (bne_iff_ne.2 hne)]
      · intro b
        rw [resolveStep, hdc]; dsimp only
        cases hbad with
        | inl hn => rw [hn]
        | inr he => rw [he]; dsimp only; rw [if_neg (by simp)]
    rw [deploy, hnr]
    dsimp only
    rw [hlink]
    dsimp only
    rw [hres]

/-- Witness for `c9_constructor_args`: for contract `H` with configured
parameters `[p1, p2]` and injected dependencies `L1`, `L2`, the resolved
argument list is `[p1, p2, 0x11, 0x22]`; with `L2` lacking an address the
deploy fails naming `L2`. -/
theorem c9_constructor_args_witness :
    deploy c9config c9art c9map = Except.ok (.deployed c9art ["p1", "p2", "0x11", "0x22"]
      "acct" 7) ∧
    deploy c9config c9art c9map2 = Except.error (JsErr.userError (unresolvedMsg "L2")) := by
  constructor
  · have h := (c9_constructor_args c9config c9art c9art c9map (by decide) (by decide)).1
      (by
        intro d hd
        have hds : getDependenciesFromConstructor c9art.abi = ["L1", "L2"] := by decide
        rw [hds] at hd
        have hd2 : d = "L1" ∨ d = "L2" := by simpa using hd
        rcases hd2 with hd2 | hd2
        · exact hd2 ▸ ⟨{ name := "L1", abi := [], bytecode := "", address := some "0x11" },
            "0x11", by decide, rfl, by decide⟩
        · exact hd2 ▸ ⟨{ name := "L2", abi := [], bytecode := "", address := some "0x22" },
            "0x22", by decide, rfl, by decide⟩)
    rw [h]
    decide
  · exact (c9_constructor_args c9config c9art c9art c9map2 (by decide) (by decide)).2
      ["L1"] "L2" [] { name := "L2", abi := [], bytecode := "" } (by decide)
      (by
        intro d' hd'
        have : d' = "L1" := by simpa using hd'
        exact this ▸ ⟨{ name := "L1", abi := [], bytecode := "", address := some "0x11" },
          "0x11", by decide, rfl, by decide⟩)
      (by decide) (Or.inl (by decide))

/-- C3: for every artifact set whose derived dependency edges contain a
cycle (self-dependencies included), graph construction fails with the error
naming an edge `(u, v)` that lies on a cycle (the first edge whose
insertion made the graph cyclic, with a path from `v` back to `u` over the
artifact edges); the builder is fail-fast (artifacts after the failing one
are never processed, the result is the same error); and the run makes no
deploy call and aborts with an error. -/
theorem c3_cycle_rejected (arts : List Contract)
    (h : ¬ Acyclic (artifactEdges arts)) :
    (∃ u v, buildDependencyGraph arts = .error (.userError (cycleMsg u v)) ∧
      (u, v) ∈ artifactEdges arts ∧
      Relation.ReflTransGen (edgeRel (artifactEdges arts)) v u) ∧
    (∀ e, buildDependencyGraph arts = .error e →
      ∀ extra, buildDependencyGraph (arts ++ extra) = .error e) ∧
    (∀ config, ∃ e, runLoader config arts = ([], some e)) := by
  have herr : ∃ e, buildDependencyGraph arts = .error e := by
    cases hb : buildDependencyGraph arts with
    | error e => exact ⟨e, rfl⟩
    | ok g =>
      exfalso
      obtain ⟨hgood, _, _, _, hall, _⟩ := build_go_ok arts _ g hb goodG_empty
      apply h
      intro x hx
      refine hgood.2.2 x (hx.mono ?_)
      intro a b hab
      rw [edgeRel] at hab ⊢
      obtain ⟨art, hart, d, hd, hed⟩ := (mem_artifactEdges _ _).1 hab
      rw [← hed]
      exact ((hall art hart).2 d hd).1
  obtain ⟨e, he⟩ := herr
  obtain ⟨u, v, g1, hg1, herr_eq, hac, hmem, hprov⟩ :=
    build_go_error arts _ e he goodG_empty
  have hprovA : ∀ ed ∈ g1.edges, ed ∈ artifactEdges arts := by
    intro ed hed
    cases hprov ed hed with
    | inl h1 => cases h1
    | inr h1 => exact h1
  have hnotin : (u, v) ∉ g1.edges := by
    intro hin
    have hsame : ((g1.setNode v).setEdge u v).edges = g1.edges := by
      rw [setEdge_edges_old _ u v (by rwa [setNode_edges])]
      exact setNode_edges g1 v
    have hth : ((g1.setNode v).setEdge u v).isAcyclic = true := by
      apply isAcyclic_of_acyclic
      rw [hsame]
      exact hg1.2.2
    rw [hth] at hac
    cases hac
  have hnew : ((g1.setNode v).setEdge u v).edges = g1.edges ++ [(u, v)] := by
    rw [setEdge_edges_new _ u v (by rwa [setNode_edges])]
    rw [setNode_edges]
  have hcyc2 : ¬ Acyclic (g1.edges ++ [(u, v)]) := by
    intro hacy
    have hth : ((g1.setNode v).setEdge u v).isAcyclic = true := by
      apply isAcyclic_of_acyclic
      rw [hnew]
      exact hacy
    rw [hth] at hac
    cases hac
  have hrtg := cyclic_extension_reaches_back g1.edges u v hg1.2.2 hcyc2
  have hsub : ∀ a b, edgeRel (g1.edges ++ [(u, v)]) a b →
      edgeRel (artifactEdges arts) a b := by
    intro a b hab
    rw [edgeRel, List.mem_append] at hab
    cases hab with
    | inl h1 => exact hprovA _ h1
    | inr h1 =>
      rw [List.mem_singleton] at h1
      show (a, b) ∈ artifactEdges arts
      rw [h1]
      exact hmem
  refine ⟨⟨u, v, herr_eq ▸ he, hmem, hrtg.mono hsub⟩, ?_, ?_⟩
  · intro e' he' extra
    rw [buildDependencyGraph, List.foldlM_append]
    rw [buildDependencyGraph] at he'
    rw [he', except_bind_error]
  · intro config
    refine ⟨e, ?_⟩
    rw [runLoader, he]

/-- Witness for `c3_cycle_rejected`: the artifact `A` whose bytecode names
itself is rejected with the cycle error on the self-edge. -/
theorem c3_cycle_rejected_witness :
    (∃ u v, buildDependencyGraph [c3artSelf] = .error (.userError (cycleMsg u v)) ∧
      (u, v) ∈ artifactEdges [c3artSelf] ∧
      Relation.ReflTransGen (edgeRel (artifactEdges [c3artSelf])) v u) ∧
    (∀ e, buildDependencyGraph [c3artSelf] = .error e →
      ∀ extra, buildDependencyGraph ([c3artSelf] ++ extra) = .error e) ∧
    (∀ config, ∃ e, runLoader config [c3artSelf] = ([], some e)) :=
  c3_cycle_rejected [c3artSelf]
    (fun hA => hA "A" (Relation.TransGen.single
      (show edgeRel (artifactEdges [c3artSelf]) "A" "A" by decide)))

/-- C7: edge insertion is transactional at the interface.  For every good
graph (nodes deduplicated, well-formed, acyclic): if inserting the edge
would make the graph cyclic, `addDepEdge` raises the cycle error and
returns no graph (so the cyclic graph is never handed onward); and whenever
it does return a graph, that graph is exactly the edge-extended one and is
still acyclic.  Consequently every graph `buildDependencyGraph` returns is
acyclic, both propositionally and for the code's own check. -/
theorem c7_edge_insertion_transactional :
    (∀ (g : Graph) (cname d : String), GoodG g →
      (¬ Acyclic (((g.setNode d).setEdge cname d).edges) →
        addDepEdge cname g d = .error (.userError (cycleMsg cname d))) ∧
      (∀ g', addDepEdge cname g d = .ok g' →
        g' = (g.setNode d).setEdge cname d ∧ Acyclic g'.edges ∧ (cname, d) ∈ g'.edges)) ∧
    (∀ (arts : List Contract) (g : Graph), buildDependencyGraph arts = .ok g →
      Acyclic g.edges ∧ g.isAcyclic = true) := by
  constructor
  · intro g cname d hg
    constructor
    · intro hcyc
      have hwf2 : WFGraph ((g.setNode d).setEdge cname d) := setEdge_setNode_wf g cname d hg
      have hfalse : ¬ (((g.setNode d).setEdge cname d).isAcyclic = true) :=
        fun ht => hcyc (acyclic_of_isAcyclic _ hwf2 ht)
      rw [addDepEdge, if_neg hfalse]
    · intro g' hok
      obtain ⟨heq, _⟩ := addDepEdge_ok_inv cname d g g' hok
      obtain ⟨hgood', _, _, _, ⟨hmem, _, _⟩, _⟩ := addDepEdge_ok_spec cname d g g' hg hok
      exact ⟨heq, hgood'.2.2, hmem⟩
  · intro arts g hb
    obtain ⟨hgood, _⟩ := build_go_ok arts _ g hb goodG_empty
    exact ⟨hgood.2.2, isAcyclic_of_acyclic g hgood.2.2⟩

/-- Witness for `c7_edge_insertion_transactional`: inserting `Q → P` into
the acyclic graph with edge `P → Q` is rejected with the cycle error. -/
theorem c7_edge_insertion_transactional_witness :
    addDepEdge "Q" c7graph "P" = .error (.userError (cycleMsg "Q" "P")) :=
  (c7_edge_insertion_transactional.1 c7graph "Q" "P"
    ⟨by decide, by decide, acyclic_of_isAcyclic c7graph (by decide) (by decide)⟩).1
    (fun hacy => hacy "P" (Relation.TransGen.head
      (show edgeRel (((c7graph.setNode "P").setEdge "Q" "P").edges) "P" "Q" by decide)
      (Relation.TransGen.single
        (show edgeRel (((c7graph.setNode "P").setEdge "Q" "P").edges) "Q" "P" by decide))))

/-- C1: for every artifact set accepted by the graph builder (that is,
whose dependency graph is acyclic) with unique contract names whose
extracted dependencies all refer to contract names, the post-order
deployment ordering is a permutation of the contract names; every
dependency of an artifact is an edge of the graph; and for every edge
(A depends on B), B's index in the ordering is strictly smaller than
A's. -/
theorem c1_postorder_topological (arts : List Contract) (g : Graph)
    (hb : buildDependencyGraph arts = Except.ok g)
    (hnames : (arts.map Contract.name).Nodup)
    (hdeps : ∀ a ∈ arts, ∀ d ∈ getDependencies a, d ∈ arts.map Contract.name) :
    (postorderG g).Perm (arts.map Contract.name) ∧
    (∀ a ∈ arts, ∀ d ∈ getDependencies a, (a.name, d) ∈ g.edges) ∧
    (∀ e ∈ g.edges, (postorderG g).indexOf e.2 < (postorderG g).indexOf e.1) := by
  obtain ⟨hgood, _, _, _, hall, hnprov⟩ := build_go_ok arts _ g hb goodG_empty
  obtain ⟨hmemiff, hnodup, hidx⟩ := postorderG_spec g hgood
  refine ⟨?_, fun a ha d hd => ((hall a ha).2 d hd).1, hidx⟩
  rw [List.perm_ext_iff_of_nodup hnodup hnames]
  intro x
  rw [hmemiff x]
  constructor
  · intro hx
    cases hnprov x hx with
    | inl h1 => cases h1
    | inr h1 =>
      obtain ⟨a, ha, h2⟩ := h1
      cases h2 with
      | inl h3 => exact List.mem_map.2 ⟨a, ha, h3.symm⟩
      | inr h3 => exact hdeps a ha x h3
  · intro hx
    obtain ⟨a, ha, h1⟩ := List.mem_map.1 hx
    exact h1 ▸ (hall a ha).1

/-- Witness for `c1_postorder_topological` at the two-artifact set where
`A` depends on `B`: the ordering is a permutation of `[A, B]` with `B`
before `A`. -/
theorem c1_postorder_topological_witness :
    (postorderG c2graph).Perm ([c2artA, c2artB].map Contract.name) ∧
    (∀ a ∈ [c2artA, c2artB], ∀ d ∈ getDependencies a, (a.name, d) ∈ c2graph.edges) ∧
    (∀ e ∈ c2graph.edges,
      (postorderG c2graph).indexOf e.2 < (postorderG c2graph).indexOf e.1) :=
  c1_postorder_topological [c2artA, c2artB] c2graph (by decide) (by decide) (by decide)

end Web3Loader
